import Mathlib

set_option maxRecDepth 8000

/-!
# Verification of the documentdb-benchmark-suite templating and value engine

Shallow embedding of the core of `fonsecamar/documentdb-benchmark-suite`:

* `src/datamanager.py`   — synthetic value generation (`DataManager`),
* `src/executors/base_executor.py` — template indexing and substitution,
* `src/executors/documentdb_executor.py` — plan cache and batch building.

Python values (the nested dict/list templates, generated parameter values)
are embedded as the inductive type `PyVal`.  Python mutation is embedded by
explicit state passing; a raised Python exception is embedded as `Option.none`
of the function's result.  Randomness, the current clock, uuid/ObjectId
identity sources and the reflective Faker provider are embedded as an
explicit `Oracle` argument.
-/

/-- One Python value, as the engine manipulates them: YAML/JSON scalars and
containers, plus the identifier / timestamp objects produced by the value
generators (`uuid.UUID`, `bson.ObjectId`, `datetime.datetime`, `bytes`).
Floats are embedded as exact rationals: the engine only ever moves them
around, and no claim depends on binary64 rounding. -/
inductive PyVal where
  | vNone
  | vBool (b : Bool)
  | vInt (n : Int)
  | vFloat (q : Rat)
  | vStr (s : String)
  | vBytes (bs : List Nat)
  | vUuid (n : Nat)
  | vOid (n : Nat)
  | vDT (year month day hour minute second micro : Nat)
  | vList (xs : List PyVal)
  | vDict (kvs : List (String × PyVal))

/-- One step of a recorded placeholder path: a dict key or a list index,
exactly as `_map_all_param_paths` records them (`current_path + [k]` /
`current_path + [idx]`). -/
inductive PathKey where
  | fld (k : String)
  | idx (n : Nat)
deriving DecidableEq, Repr

/-- A recorded placeholder path. -/
abbrev PPath := List PathKey

/-- A parameter spec / command option dict.  Python dicts have unique keys;
lookups below take the first matching entry, which coincides on that domain. -/
abbrev Param := List (String × PyVal)

/-- A repetition's generated values, `param name ↦ value` (`param_values`). -/
abbrev ValueSet := List (String × PyVal)

/-- `d.get(key)`: first entry with the given key, if any. -/
def pGet (p : Param) (key : String) : Option PyVal :=
  match p with
  | [] => none
  | (k, v) :: rest => if k = key then some v else pGet rest key

/-- `d.get(key, default)`. -/
def pGetD (p : Param) (key : String) (d : PyVal) : PyVal :=
  (pGet p key).getD d

/-- `d[key] = value` on a Python dict: overwrite the existing entry in place,
or append a new entry at the end (dicts preserve insertion order). -/
def dictSet (kvs : List (String × PyVal)) (key : String) (v : PyVal) :
    List (String × PyVal) :=
  match kvs with
  | [] => [(key, v)]
  | (k, w) :: rest =>
      if k = key then (k, v) :: rest else (k, w) :: dictSet rest key v

/-- Python truthiness (`bool(value)`), for the values the engine handles. -/
def pyTruthy : PyVal → Bool
  | .vNone => false
  | .vBool b => b
  | .vInt n => n ≠ 0
  | .vFloat q => q ≠ 0
  | .vStr s => s ≠ ""
  | .vBytes bs => bs ≠ []
  | .vUuid _ => true
  | .vOid _ => true
  | .vDT _ _ _ _ _ _ _ => true
  | .vList xs => !xs.isEmpty
  | .vDict kvs => !kvs.isEmpty

/-! ## Rendering helpers (Python `str()`, `hex()`, case mapping)

These model CPython builtins, from their documented behaviour.  Case mapping
is modelled on ASCII (Python's is full Unicode); the float and bytes and
container renderings are definite stand-ins documented at their definitions —
no claim below inspects those renderings. -/

/-- Left-pad a decimal numeral with zeros to the given width. -/
def padNum (width n : Nat) : String :=
  let s := toString n
  String.mk (List.replicate (width - s.length) '0') ++ s

/-- Lowercase hexadecimal digits of `n` (no prefix), `"0"` for zero. -/
def natHex (n : Nat) : String :=
  String.mk (Nat.toDigits 16 n)

/-- Hexadecimal numeral of `n` left-padded with zeros to the given width. -/
def padHex (width n : Nat) : String :=
  let s := natHex n
  String.mk (List.replicate (width - s.length) '0') ++ s

/-- `str(uuid)`: canonical 8-4-4-4-12 form of the 128-bit value. -/
def uuidCanonical (n : Nat) : String :=
  let h := (padHex 32 (n % 2 ^ 128)).data
  String.mk (h.take 8) ++ "-" ++ String.mk ((h.drop 8).take 4) ++ "-" ++
    String.mk ((h.drop 12).take 4) ++ "-" ++ String.mk ((h.drop 16).take 4) ++
    "-" ++ String.mk (h.drop 20)

/-- `uuid.hex`: the 32 hex digits without dashes. -/
def uuidHex (n : Nat) : String := padHex 32 (n % 2 ^ 128)

/-- `str(ObjectId)`: 24 hex digits of the 12-byte value. -/
def oidCanonical (n : Nat) : String := padHex 24 (n % 2 ^ 96)

/-- Python `hex(n)`: `0x…` lowercase, `-0x…` for negatives. -/
def pyHex (n : Int) : String :=
  if n < 0 then "-0x" ++ natHex n.natAbs else "0x" ++ natHex n.natAbs

/-- `str(datetime)`: `YYYY-MM-DD HH:MM:SS[.ffffff]`. -/
def dtStr (year month day hour minute second micro : Nat) : String :=
  padNum 4 year ++ "-" ++ padNum 2 month ++ "-" ++ padNum 2 day ++ " " ++
    padNum 2 hour ++ ":" ++ padNum 2 minute ++ ":" ++ padNum 2 second ++
    (if micro = 0 then "" else "." ++ padNum 6 micro)

/-- `str(float)`: rendered from the exact rational.  CPython's shortest-repr
binary64 formatting is not re-derived digit by digit; no claim below reads
this rendering. -/
def floatStr (q : Rat) : String :=
  if q.den = 1 then toString q.num ++ ".0" else toString q.num ++ "/" ++ toString q.den

mutual
/-- Python `str(value)`.  The `vList`/`vDict`/`vBytes` renderings stand in for
CPython's `repr`-based forms (quoting is not reproduced); no claim below
inspects them — generated scalars are what reach `str` in the claims. -/
def pyStr : PyVal → String
  | .vNone => "None"
  | .vBool true => "True"
  | .vBool false => "False"
  | .vInt n => toString n
  | .vFloat q => floatStr q
  | .vStr s => s
  | .vBytes bs => "b" ++ String.intercalate " " (bs.map (padHex 2))
  | .vUuid n => uuidCanonical n
  | .vOid n => oidCanonical n
  | .vDT y mo d h mi s us => dtStr y mo d h mi s us
  | .vList xs => "[" ++ String.intercalate ", " (pyStrList xs) ++ "]"
  | .vDict kvs => "\x7b" ++ String.intercalate ", " (pyStrDict kvs) ++ "\x7d"

def pyStrList : List PyVal → List String
  | [] => []
  | x :: xs => pyStr x :: pyStrList xs

def pyStrDict : List (String × PyVal) → List String
  | [] => []
  | (k, v) :: kvs => (k ++ ": " ++ pyStr v) :: pyStrDict kvs
end

/-- ASCII model of `str.lower()`. -/
def pyLower (s : String) : String := String.mk (s.data.map Char.toLower)

/-- ASCII model of `str.upper()`. -/
def pyUpper (s : String) : String := String.mk (s.data.map Char.toUpper)

/-- UTF-8 bytes of a string (`value.encode('utf-8')`). -/
def utf8Bytes (s : String) : List Nat :=
  s.toUTF8.toList.map (fun b => b.toNat)

/-! ## Oracle: randomness, clock, identity and provider sources

`DataManager` draws on `random`, `uuid`, `bson.ObjectId`, the UTC clock and
the reflective Faker provider.  One `Oracle` supplies the draws for one
`generate_param_value` call; none of the claims require distributions, only
the ranges of the documented contracts (`random.randint(a, b)` draws an
integer in `[a, b]` when `a ≤ b` and raises otherwise; `random.uniform(a, b)`
is `a + (b - a) * random()` with `random()` in `[0, 1)`; `random.choice(seq)`
picks an index below `len(seq)` and raises on an empty sequence). -/
structure Oracle where
  /-- Stream of raw draws; draw `i` selects uniformly via reduction modulo
  the needed range, so every residue is attainable. -/
  randNat : Nat → Nat := fun _ => 0
  /-- The value of `random.random()`, intended in `[0, 1)` (hypothesised in
  the theorems that use it). -/
  randFrac : Rat := 0
  /-- The 128-bit value of `uuid.uuid4()`. -/
  uuidVal : Nat := 0
  /-- The 96-bit value of `bson.ObjectId()`. -/
  oidVal : Nat := 0
  /-- `int(datetime.now(timezone.utc).timestamp())`. -/
  nowEpoch : Int := 0
  /-- Current UTC time fields `(Y, M, D, h, m, s, µs)`. -/
  nowDT : Nat × Nat × Nat × Nat × Nat × Nat × Nat := (1970, 1, 1, 0, 0, 0, 0)
  /-- Result of `DataManager._call_faker_method` (reflective provider chain;
  it catches every exception internally and so never raises). -/
  faker : String → Param → PyVal := fun _ _ => .vStr ""

/-- `random.randint`'s argument handling: `bool` is an `int` subclass in
Python; any other type raises. -/
def asPyInt : PyVal → Option Int
  | .vInt n => some n
  | .vBool b => some (if b then 1 else 0)
  | _ => none

/-- Numeric coercion accepted by `random.uniform` (int / float / bool). -/
def asPyNum : PyVal → Option Rat
  | .vInt n => some (n : Rat)
  | .vFloat q => some q
  | .vBool b => some (if b then 1 else 0)
  | _ => none

/-- The default alphabet of the `random_string` generator
(`"abcdefghijklmnopqrstuvwxyzABCDEFGHIJKLMNOPQRSTUVWXYZ0123456789"`). -/
def defaultChars : String :=
  "abcdefghijklmnopqrstuvwxyzABCDEFGHIJKLMNOPQRSTUVWXYZ0123456789"

/-- The default strftime pattern `DataManager._default_date_format`. -/
def defaultDateFormat : String := "%Y-%m-%dT%H:%M:%S.%fZ"

/-- The `'guid'` entry: `uuid.uuid4()`. -/
def genGuid : Param → Oracle → Option PyVal := fun _ o => some (.vUuid (o.uuidVal % 2 ^ 128))

/-- The `'objectid'` entry: `ObjectId()`. -/
def genObjectId : Param → Oracle → Option PyVal := fun _ o => some (.vOid (o.oidVal % 2 ^ 96))

/-- The `'datetime'` entry formats the current UTC time and parses it
straight back (`strptime(strftime(now, fmt), fmt)`); the round trip is
embedded as the identity on the time fields — lossless for the default
format, and no claim inspects the fields. -/
def genDatetime : Param → Oracle → Option PyVal := fun _ o =>
  match o.nowDT with
  | (y, mo, d, h, mi, s, us) => some (.vDT y mo d h mi s us)

/-- The `'unix_timestamp'` entry: current epoch seconds as an int. -/
def genUnixTimestamp : Param → Oracle → Option PyVal := fun _ o => some (.vInt o.nowEpoch)

/-- The `'random_int'` entry: `random.randint(p.get('start', 0),
p.get('end', 100))` — an integer in `[start, end]`; `start > end` or
non-int bounds raise. -/
def genRandomInt : Param → Oracle → Option PyVal := fun p o => do
  let a ← asPyInt (pGetD p "start" (.vInt 0))
  let b ← asPyInt (pGetD p "end" (.vInt 100))
  if a ≤ b then some (.vInt (a + (o.randNat 0 % (b - a + 1).toNat))) else none

/-- The `'random_float'` entry: `random.uniform(p.get('start', 0.0),
p.get('end', 1.0))`, i.e. `a + (b - a) * random()`. -/
def genRandomFloat : Param → Oracle → Option PyVal := fun p o => do
  let a ← asPyNum (pGetD p "start" (.vFloat 0))
  let b ← asPyNum (pGetD p "end" (.vFloat 1))
  some (.vFloat (a + (b - a) * o.randFrac))

/-- The `'random_list'` entry: `random.choice(p.get('list', []))`; an empty
or non-list option raises. -/
def genRandomList : Param → Oracle → Option PyVal := fun p o =>
  match pGetD p "list" (.vList []) with
  | .vList xs =>
      if h : xs.length = 0 then none
      else some (xs.get ⟨o.randNat 0 % xs.length, Nat.mod_lt _ (Nat.pos_of_ne_zero h)⟩)
  | _ => none

/-- The `'random_bool'` entry: `random.choice([True, False])`. -/
def genRandomBool : Param → Oracle → Option PyVal := fun _ o =>
  some (.vBool (o.randNat 0 % 2 = 0))

/-- The `'random_string'` entry:
`''.join(random.choice(p.get('chars', <62 alphanumerics>)) for _ in
range(p.get('length', 10)))` — one independent draw from the character set
per position; `choice` on an empty set raises once the range is non-empty,
and a non-int length or non-string charset raises. -/
def genRandomString : Param → Oracle → Option PyVal := fun p o => do
  let n ← asPyInt (pGetD p "length" (.vInt 10))
  match pGetD p "chars" (.vStr defaultChars) with
  | .vStr cs =>
      if n ≤ 0 then some (.vStr "")
      else if h : cs.data.length = 0 then none
      else some (.vStr (String.mk ((List.range n.toNat).map (fun i =>
        cs.data.get ⟨o.randNat i % cs.data.length, Nat.mod_lt _ (Nat.pos_of_ne_zero h)⟩))))
  | _ => none

/-- The `'constant'` entry: `p.get('value')`. -/
def genConstant : Param → Oracle → Option PyVal := fun p _ => some (pGetD p "value" .vNone)

/-- `DataManager._type_generators`: the type-tag → generator dispatch dict,
entry for entry. -/
def typeGenerators : List (String × (Param → Oracle → Option PyVal)) :=
  [ ("guid", genGuid),
    ("objectid", genObjectId),
    ("datetime", genDatetime),
    ("unix_timestamp", genUnixTimestamp),
    ("random_int", genRandomInt),
    ("random_float", genRandomFloat),
    ("random_list", genRandomList),
    ("random_bool", genRandomBool),
    ("random_string", genRandomString),
    ("constant", genConstant) ]

/-! ## `DataManager._handle_concat` -/

/-- Python `\w` on the ASCII plane (the regex is compiled without
`re.ASCII`, so CPython additionally matches non-ASCII word characters; the
workload keys are ASCII and the claims stay on ASCII). -/
def wordChar (c : Char) : Bool := c.isAlphanum || c = '_'

/-- Longest word-character run at the head of the input, and the rest. -/
def takeWord : List Char → List Char × List Char
  | [] => ([], [])
  | c :: cs =>
      if wordChar c then
        let r := takeWord cs
        (c :: r.1, r.2)
      else ([], c :: cs)

theorem takeWord_append : ∀ cs : List Char, (takeWord cs).1 ++ (takeWord cs).2 = cs
  | [] => rfl
  | c :: cs => by
      by_cases h : wordChar c <;> simp [takeWord, h, takeWord_append cs]

theorem takeWord_len_le (cs : List Char) : (takeWord cs).2.length ≤ cs.length := by
  conv_rhs => rw [← takeWord_append cs]
  simp

/-- The scan of `_handle_concat`: leftmost non-overlapping matches of the
cached pattern `\{@\w+\}` (greedy, so the run of word characters after `{@`
is maximal and must be followed directly by `}`), each replaced by
`str(values.get(key, ''))`; all other characters are copied through.  When a
position does not start a match, the regex engine retries from the next
position, which is what the non-matching branches do. -/
def concatScan (vals : List (String × String)) : List Char → List Char
  | [] => []
  | '{' :: '@' :: rest₂ =>
      match hw : takeWord rest₂ with
      | (w, rest₃) =>
          if w.isEmpty then '{' :: concatScan vals ('@' :: rest₂)
          else
            match rest₃ with
            | '}' :: rest₄ =>
                (((vals.lookup (String.mk w)).getD "").data) ++ concatScan vals rest₄
            | _ => '{' :: concatScan vals ('@' :: rest₂)
  | c :: cs => c :: concatScan vals cs
termination_by l => l.length
decreasing_by
  all_goals simp only [List.length_cons, List.length_append]
  all_goals first
    | omega
    | (have h1 := takeWord_len_le rest₂; rw [hw] at h1;
       simp only [List.length_cons] at h1; omega)

/-- `DataManager._handle_concat(param, values)`: substitute each `{@name}`
placeholder of `param.get('value', '')` by `str(values.get(name, ''))`.
A non-string `value` option reaches `re.finditer` and raises (`none`). -/
def handleConcat (p : Param) (values : ValueSet) : Option PyVal :=
  match pGetD p "value" (.vStr "") with
  | .vStr s =>
      some (.vStr (String.mk (concatScan (values.map (fun kv => (kv.1, pyStr kv.2))) s.data)))
  | _ => none

/-! ## `DataManager._convert_type` -/

/-- `''.join(filter(lambda c: c.isdigit() or c == '-', value))` (the int
branch's cleaning). -/
def cleanedForInt (s : String) : List Char :=
  s.data.filter (fun c => c.isDigit || c = '-')

/-- The float branch's cleaning, keeping digits, `'.'` and `'-'`. -/
def cleanedForFloat (s : String) : List Char :=
  s.data.filter (fun c => c.isDigit || c = '.' || c = '-')

/-- Numeric value of a digit run. -/
def digitsVal (ds : List Char) : Nat :=
  ds.foldl (fun acc c => acc * 10 + (c.toNat - '0'.toNat)) 0

/-- `int(s)` for a non-empty string over digits and `'-'` (all that survives
`cleanedForInt`): an optional leading sign followed by at least one digit;
anything else (`"-"`, `"--12"`, `"1-2"`, …) raises `ValueError`. -/
def pyParseInt (l : List Char) : Option Int :=
  match l with
  | [] => none
  | '-' :: rest =>
      if rest ≠ [] ∧ rest.all (fun c => c.isDigit) then some (-(digitsVal rest : Int))
      else none
  | _ =>
      if l.all (fun c => c.isDigit) then some ((digitsVal l : Int)) else none

/-- `float(s)` for a non-empty string over digits, `'.'` and `'-'` (all that
survives `cleanedForFloat`): optional leading sign, then digits with at most
one dot and at least one digit somewhere (`"1."`, `".5"` parse; `"."`,
`"1.2.3"`, `"1-2"` raise `ValueError`).  The value is the exact decimal. -/
def pyParseFloat (l : List Char) : Option Rat :=
  let core : List Char → Option Rat := fun l₂ =>
    let ip := l₂.takeWhile (fun c => c.isDigit)
    let rest := l₂.drop ip.length
    match rest with
    | [] => if ip ≠ [] then some ((digitsVal ip : Rat)) else none
    | '.' :: fr =>
        if fr.all (fun c => c.isDigit) ∧ (ip ≠ [] ∨ fr ≠ []) then
          some ((digitsVal ip : Rat) + (digitsVal fr : Rat) / ((10 : Rat) ^ fr.length))
        else none
    | _ => none
  match l with
  | '-' :: rest => (core rest).map (fun q => -q)
  | _ => core l

/-- `int(value)` truncates a float toward zero. -/
def truncRat (q : Rat) : Int :=
  if 0 ≤ q then ⌊q⌋ else -⌊-q⌋

/-- One strftime directive, for the fields `(Y, M, D, h, m, s, µs)`. -/
def strfDirective (y mo d h mi s us : Nat) (c : Char) : List Char :=
  if c = 'Y' then (padNum 4 y).data
  else if c = 'm' then (padNum 2 mo).data
  else if c = 'd' then (padNum 2 d).data
  else if c = 'H' then (padNum 2 h).data
  else if c = 'M' then (padNum 2 mi).data
  else if c = 'S' then (padNum 2 s).data
  else if c = 'f' then (padNum 6 us).data
  else if c = '%' then ['%']
  else ['%', c]

/-- `datetime.strftime(fmt)` over the directives the workloads use
(`%Y %m %d %H %M %S %f %%`); any other `%x` pair is passed through, as the
common platform strftime does.  Total: no claim depends on an exotic format
raising. -/
def strftimeRun (y mo d h mi s us : Nat) : List Char → List Char
  | [] => []
  | ['%'] => ['%']
  | '%' :: c :: rest => strfDirective y mo d h mi s us c ++ strftimeRun y mo d h mi s us rest
  | c :: rest => c :: strftimeRun y mo d h mi s us rest

/-- `param.get('format', DataManager._default_date_format)`, as a character
list; a non-string `format` option is out of the modelled domain. -/
def fmtOf (p : Param) : List Char :=
  match pGetD p "format" (.vStr defaultDateFormat) with
  | .vStr s => s.data
  | _ => defaultDateFormat.data

/-- The recognised output-conversion tags of `_convert_type`. -/
def knownConvTags : List String :=
  ["string", "str", "int", "integer", "float", "decimal", "bool", "boolean",
   "hex", "upper", "lower", "bytes"]

/-- The log line of the unknown-conversion branch. -/
def warnUnknownConv (t : String) : String :=
  "Unknown conversion type: " ++ t ++ ". Returning value as-is."

/-- The log line of the `except` branch of `_convert_type` (the exception's
own text is not re-derived). -/
def errConvert (t : String) : String :=
  "Error converting value to " ++ t ++ ":"

/-- The body of the `try` of `_convert_type`, branch for branch; `none`
embeds an exception escaping to the `except` handler.  `isinstance(value,
int)` is true of Python `bool`s, which is why the bool cases sit inside the
int and hex branches. -/
def convertTypeCore (value : PyVal) (target : String) (p : Param) :
    Option (PyVal × List String) :=
  if target = "string" ∨ target = "str" then
    match value with
    | .vUuid n => some (.vStr (uuidCanonical n), [])
    | .vOid n => some (.vStr (oidCanonical n), [])
    | .vDT y mo d h mi s us =>
        some (.vStr (String.mk (strftimeRun y mo d h mi s us (fmtOf p))), [])
    | v => some (.vStr (pyStr v), [])
  else if target = "int" ∨ target = "integer" then
    match value with
    | .vBool b => some (.vInt (if b then 1 else 0), [])
    | .vStr s =>
        let c := cleanedForInt s
        if c.isEmpty then some (.vInt 0, [])
        else (pyParseInt c).map (fun n => (.vInt n, []))
    | .vInt n => some (.vInt n, [])
    | .vFloat q => some (.vInt (truncRat q), [])
    | .vUuid n => some (.vInt (n % 2 ^ 128), [])
    | _ => none
  else if target = "float" ∨ target = "decimal" then
    match value with
    | .vStr s =>
        let c := cleanedForFloat s
        if c.isEmpty then some (.vFloat 0, [])
        else (pyParseFloat c).map (fun q => (.vFloat q, []))
    | .vInt n => some (.vFloat (n : Rat), [])
    | .vFloat q => some (.vFloat q, [])
    | .vBool b => some (.vFloat (if b then 1 else 0), [])
    | _ => none
  else if target = "bool" ∨ target = "boolean" then
    match value with
    | .vStr s => some (.vBool (pyLower s ∈ ["true", "1", "yes", "y"]), [])
    | v => some (.vBool (pyTruthy v), [])
  else if target = "hex" then
    match value with
    | .vUuid n => some (.vStr (uuidHex n), [])
    | .vInt n => some (.vStr (pyHex n), [])
    | .vBool b => some (.vStr (pyHex (if b then 1 else 0)), [])
    | v => some (.vStr (pyStr v), [])
  else if target = "upper" then
    match value with
    | .vDT y mo d h mi s us => some (.vStr (pyUpper (dtStr y mo d h mi s us)), [])
    | v => some (.vStr (pyUpper (pyStr v)), [])
  else if target = "lower" then
    match value with
    | .vDT y mo d h mi s us => some (.vStr (pyLower (dtStr y mo d h mi s us)), [])
    | v => some (.vStr (pyLower (pyStr v)), [])
  else if target = "bytes" then
    match value with
    | .vUuid n => some (.vBytes ((List.range 16).map (fun i => n / 256 ^ (15 - i) % 256)), [])
    | v => some (.vBytes (utf8Bytes (pyStr v)), [])
  else
    some (value, [warnUnknownConv target])

/-- `DataManager._convert_type`: the `try` body, with the `except` handler
logging and returning the pre-conversion value unchanged. -/
def convertType (value : PyVal) (target : String) (p : Param) : PyVal × List String :=
  match convertTypeCore value target p with
  | some r => r
  | none => (value, [errConvert target])

/-! ## `DataManager._generate_raw_value` and `generate_param_value` -/

/-- The log line of the unknown-parameter-type branch. -/
def warnUnknownType (t : String) : String :=
  "Unknown parameter type: " ++ t ++ ". Returning empty string."

/-- `DataManager._generate_raw_value(param_type, param, values)`: dict lookup
into `_type_generators`, then the `concat` special case, then the
`faker.`-reflection branch (embedded as the oracle's `faker` field — the
Python helper catches all its exceptions), then the logged empty-string
fallback.  Result: (value or raised exception, log lines). -/
def generateRawValue (ptype : String) (p : Param) (values : ValueSet)
    (o : Oracle) : Option PyVal × List String :=
  match typeGenerators.lookup ptype with
  | some gen => (gen p o, [])
  | none =>
      if ptype = "concat" then (handleConcat p values, [])
      else if (("faker.").data.isPrefixOf ptype.data) then
        (some (o.faker (String.mk (ptype.data.drop 6)) p), [])
      else (some (.vStr ""), [warnUnknownType ptype])

/-- `DataManager.generate_param_value(param, values)`.  `param.get('type')`
is `None` when the key is missing (and a non-string under YAML typing), and
`None.lower()` raises `AttributeError` before any recognition or fallback:
that raise is the `none` result.  The optional output coercion runs only
when `param.get('as')` is truthy (an empty string is falsy and skips it);
a truthy non-string `as` would raise at `.lower()`. -/
def generateParamValue (p : Param) (values : ValueSet) (o : Oracle) :
    Option (PyVal × List String) :=
  match pGet p "type" with
  | some (.vStr t) =>
      let rl := generateRawValue (pyLower t) p values o
      match rl.1 with
      | some raw =>
          match pGet p "as" with
          | some ov =>
              if pyTruthy ov then
                match ov with
                | .vStr ot =>
                    let cv := convertType raw (pyLower ot) p
                    some (cv.1, rl.2 ++ cv.2)
                | _ => none
              else some (raw, rl.2)
          | none => some (raw, rl.2)
      | none => none
  | _ => none

/-! ## `BaseExecutor._map_all_param_paths` (the Template Indexer) -/

/-- The comparison `v == param` of the indexer: a Python value equals a
parameter-name string exactly when it is that string. -/
def isStrVal (v : PyVal) (n : String) : Bool :=
  match v with
  | .vStr s => s == n
  | _ => false

mutual
/-- The `(param, path)` append events of `recurse` in
`_map_all_param_paths`, in execution order: at each dict entry / list
element, first one event per matching name of `param_names` (in
`param_names` order), then the recursion into the child (children that are
not dicts or lists are not entered). -/
def paramEvents (names : List String) (pre : PPath) : PyVal → List (String × PPath)
  | .vDict kvs => paramEventsDict names pre kvs
  | .vList xs => paramEventsList names pre 0 xs
  | _ => []

def paramEventsDict (names : List String) (pre : PPath) :
    List (String × PyVal) → List (String × PPath)
  | [] => []
  | (k, v) :: rest =>
      (names.filter (fun n => isStrVal v n)).map (fun n => (n, pre ++ [.fld k])) ++
        paramEvents names (pre ++ [.fld k]) v ++ paramEventsDict names pre rest

def paramEventsList (names : List String) (pre : PPath) (i : Nat) :
    List PyVal → List (String × PPath)
  | [] => []
  | v :: rest =>
      (names.filter (fun n => isStrVal v n)).map (fun n => (n, pre ++ [.idx i])) ++
        paramEvents names (pre ++ [.idx i]) v ++ paramEventsList names pre (i + 1) rest
end

/-- `result[param].append(path)` on the `defaultdict(list)`: entries keep
first-append order, appends go to the entry's end. -/
def addEvent (acc : List (String × List PPath)) (e : String × PPath) :
    List (String × List PPath) :=
  match acc with
  | [] => [(e.1, [e.2])]
  | (n, ps) :: rest =>
      if n = e.1 then (n, ps ++ [e.2]) :: rest else (n, ps) :: addEvent rest e

/-- `BaseExecutor._map_all_param_paths(obj, param_names)`: all of
`recurse`'s append events, grouped into the `param → list of paths` dict. -/
def mapAllParamPaths (obj : PyVal) (names : List String) :
    List (String × List PPath) :=
  (paramEvents names [] obj).foldl addEvent []

/-! ## `BaseExecutor._replace_json_param_at_paths` / `_replace_all_params` -/

/-- `target = obj; for key in path[:-1]: target = target[key];
target[path[-1]] = value`, written as a functional update (the in-place
write on a tree with no internal aliasing).  `none` embeds the raised
`IndexError`/`KeyError`/`TypeError`: an empty path, a missing dict key or
list index on the walk, a list index out of range at the final step, or a
step into a non-container.  The final write on a dict adds the key when it
is absent, as Python item assignment does. -/
def setAt : PyVal → PPath → PyVal → Option PyVal
  | .vDict kvs, [.fld k], v => some (.vDict (dictSet kvs k v))
  | .vList xs, [.idx i], v =>
      if i < xs.length then some (.vList (xs.set i v)) else none
  | .vDict kvs, .fld k :: rest, v =>
      (pGet kvs k).bind fun cv =>
        (setAt cv rest v).map fun cv2 => .vDict (dictSet kvs k cv2)
  | .vList xs, .idx i :: rest, v =>
      (xs.get? i).bind fun cv =>
        (setAt cv rest v).map fun cv2 => .vList (xs.set i cv2)
  | _, _, _ => none

/-- `BaseExecutor._replace_json_param_at_paths(obj, paths, value)`. -/
def replaceJsonParamAtPaths (obj : PyVal) (paths : List PPath) (value : PyVal) :
    Option PyVal :=
  paths.foldlM (fun o p => setAt o p value) obj

mutual
/-- `copy.deepcopy` on a template tree: a structurally identical fresh tree. -/
def deepcopyVal : PyVal → PyVal
  | .vList xs => .vList (deepcopyList xs)
  | .vDict kvs => .vDict (deepcopyDict kvs)
  | v => v

def deepcopyList : List PyVal → List PyVal
  | [] => []
  | x :: xs => deepcopyVal x :: deepcopyList xs

def deepcopyDict : List (String × PyVal) → List (String × PyVal)
  | [] => []
  | (k, v) :: kvs => (k, deepcopyVal v) :: deepcopyDict kvs
end

/-- `BaseExecutor._replace_all_params(obj, param_paths_dict, param_values,
deepcopy_obj)`, as a state transformer.  The result pair is (the caller's
`obj` after the call, the returned tree): with `deepcopy_obj = True` the
writes land on the fresh copy and the caller's tree is untouched; with
`False` the returned tree *is* the caller's mutated tree.  `vals` embeds the
`param_values` dict; a name not in it raises `KeyError` (`none`). -/
def replaceAllParams (obj : PyVal) (ppd : List (String × List PPath))
    (vals : String → Option PyVal) (deepcopy_obj : Bool) :
    Option (PyVal × PyVal) :=
  let start := if deepcopy_obj then deepcopyVal obj else obj
  (ppd.foldlM (fun o (pr : String × List PPath) =>
      (vals pr.1).bind (fun v => replaceJsonParamAtPaths o pr.2 v)) start).map
    (fun res => (if deepcopy_obj then obj else res, res))

/-- The tree `_replace_all_params` returns (its default, deep-copying form),
which is what `execute` stores into the batch. -/
def substituteTree (obj : PyVal) (ppd : List (String × List PPath))
    (vals : String → Option PyVal) : Option PyVal :=
  (replaceAllParams obj ppd vals true).map Prod.snd

/-! ## `DocumentDBExecutor.execute` (planner, cache, batch loop) -/

/-- The fields of the command definition dict that `execute` reads, with
`command.get`'s defaults.  Connection handling, projection/limit/sort and
the driver call itself are outside the modelled core. -/
structure Cmd where
  ctype : Option String := none
  batchSize : Int := 1
  document : PyVal := .vDict []
  pipeline : PyVal := .vList []
  filter : PyVal := .vDict []
  update : PyVal := .vDict []
  replacement : PyVal := .vDict []
  parameters : List Param := []

/-- Lines 93–107 of `documentdb_executor.py`: pick `json_template` and
`update_template` from the command kind (`update_template` stays `{}` except
for update/replace). -/
def selectTemplates (c : Cmd) : PyVal × PyVal :=
  if c.ctype = some "insert" then (c.document, .vDict [])
  else if c.ctype = some "aggregate" then (c.pipeline, .vDict [])
  else if c.ctype = some "find" ∨ c.ctype = some "delete" ∨
      c.ctype = some "update" ∨ c.ctype = some "replace" then
    (c.filter,
      if c.ctype = some "update" then c.update
      else if c.ctype = some "replace" then c.replacement
      else .vDict [])
  else (.vDict [], .vDict [])

/-- The cached plan: the four entries of the dict stored in
`_param_map_cache`. -/
structure Plan where
  parameters : List Param
  param_names : List String
  param_paths_dict : List (String × List PPath)
  param_paths_dict_upd : List (String × List PPath)

/-- `self._param_map_cache`. -/
abbrev PlanCache := List (String × Plan)

/-- `key = value` on a generic string-keyed Python dict. -/
def assocSet {α : Type} (kvs : List (String × α)) (key : String) (v : α) :
    List (String × α) :=
  match kvs with
  | [] => [(key, v)]
  | (k, w) :: rest =>
      if k = key then (k, v) :: rest else (k, w) :: assocSet rest key v

/-- `param.get('name')` of the plan-building step; a parameter whose `name`
is missing or not a string is outside the modelled domain (Python would
carry `None` or a non-string into the name list). -/
def paramName (p : Param) : String :=
  match pGet p "name" with
  | some (.vStr s) => s
  | _ => ""

/-- `cache_key = f"{task_name}:{command_type}"` (an absent kind formats as
`"None"`). -/
def cacheKeyOf (task : String) (cty : Option String) : String :=
  task ++ ":" ++ (match cty with | some s => s | none => "None")

/-- Lines 109–127: resolve the cached plan or build and store it.  A stored
plan dict has four entries and is never falsy, so `if not cache` is exactly
the lookup miss. -/
def getPlan (cache : PlanCache) (task : String) (c : Cmd) : Plan × PlanCache :=
  let tpl := selectTemplates c
  let key := cacheKeyOf task c.ctype
  match cache.lookup key with
  | some plan => (plan, cache)
  | none =>
      let names := c.parameters.map paramName
      let plan : Plan :=
        ⟨c.parameters, names, mapAllParamPaths tpl.1 names, mapAllParamPaths tpl.2 names⟩
      (plan, assocSet cache key plan)

/-- One repetition's `param_values` dict comprehension (line 131):
`{param['name']: DataManager.generate_param_value(param) for param in
parameters}`.  Note the single argument: the generated-so-far context is
*not* passed, so every generator call sees an empty ValueSet.  `row j` is
the oracle of the `j`-th generator call; a missing `name` key raises
(`none`), a duplicated name keeps the later value, as dicts do. -/
def buildValueSet (ps : List Param) (row : Nat → Oracle) (j : Nat := 0)
    (acc : ValueSet := []) : Option ValueSet :=
  match ps with
  | [] => some acc
  | p :: rest =>
      match pGet p "name", generateParamValue p [] (row j) with
      | some (.vStr nm), some rv => buildValueSet rest row (j + 1) (assocSet acc nm rv.1)
      | _, _ => none

/-- One iteration of the batch loop (lines 130–133): build the repetition's
`param_values`, substitute the primary template, append the concrete body,
and remember this repetition's ValueSet (Python's loop variable
`param_values` survives the loop body). -/
def batchStep (jt : PyVal) (ppd : List (String × List PPath)) (ps : List Param)
    (os : Nat → Nat → Oracle) (st : List PyVal × Option ValueSet) (i : Nat) :
    Option (List PyVal × Option ValueSet) :=
  (buildValueSet ps (os i)).bind (fun pv =>
    (substituteTree jt ppd (fun nm => pv.lookup nm)).map
      (fun fc => (st.1 ++ [fc], some pv)))

/-- Lines 129–135: the batch loop and the trailing update-body substitution.
The loop state carries `bulkInsert` and the last repetition's
`param_values` (`none` before the first iteration: Python's `param_values`
is then unbound, and line 135 raises `NameError` — so a `batchSize` of zero
makes the whole call raise).  `os i j` is the oracle of generator call `j`
of repetition `i`. -/
def execBatch (n : Nat) (jt ut : PyVal) (plan : Plan) (os : Nat → Nat → Oracle) :
    Option (List PyVal × PyVal) :=
  ((List.range n).foldlM (batchStep jt plan.param_paths_dict plan.parameters os)
      (([], none) : List PyVal × Option ValueSet)).bind (fun st =>
    st.2.bind (fun pv =>
      (substituteTree ut plan.param_paths_dict_upd (fun nm => pv.lookup nm)).map
        (fun upd => (st.1, upd))))

/-- `DocumentDBExecutor.execute(command, task_name)`, template selection +
plan cache + batch building; the result is (`bulkInsert` with the final
`upd_command`, or a raise, and the cache after the call).  The driver
dispatch downstream of line 135 consumes these unchanged. -/
def executeModel (cache : PlanCache) (task : String) (c : Cmd)
    (os : Nat → Nat → Oracle) : Option (List PyVal × PyVal) × PlanCache :=
  let pc := getPlan cache task c
  let tpl := selectTemplates c
  (execBatch c.batchSize.toNat tpl.1 tpl.2 pc.1 os, pc.2)

/-! ## Claim-side definitions

`substSpec` is written from the round-trip claim's words (not from the
source): "every scalar node whose value exactly equals a name in `N` is
replaced by `V` of that name, and every other node is identical".  The
round-trip theorem compares the engine's substitution against it. -/

mutual
/-- The claimed result of `substitute(index(T, names), values)`: replace
every matching placeholder scalar, keep everything else. -/
def substSpec (ns : List String) (V : String → PyVal) : PyVal → PyVal
  | .vStr s => if s ∈ ns then V s else .vStr s
  | .vList xs => .vList (substSpecList ns V xs)
  | .vDict kvs => .vDict (substSpecDict ns V kvs)
  | v => v

def substSpecList (ns : List String) (V : String → PyVal) : List PyVal → List PyVal
  | [] => []
  | x :: xs => substSpec ns V x :: substSpecList ns V xs

def substSpecDict (ns : List String) (V : String → PyVal) :
    List (String × PyVal) → List (String × PyVal)
  | [] => []
  | (k, v) :: kvs => (k, substSpec ns V v) :: substSpecDict ns V kvs
end

mutual
/-- A tree representable by Python containers: every dict has pairwise
distinct keys (a Python `dict` cannot carry duplicates). -/
def wfTree : PyVal → Bool
  | .vList xs => wfTreeList xs
  | .vDict kvs => ((kvs.map Prod.fst).Nodup : Bool) && wfTreeDict kvs
  | _ => true

def wfTreeList : List PyVal → Bool
  | [] => true
  | x :: xs => wfTree x && wfTreeList xs

def wfTreeDict : List (String × PyVal) → Bool
  | [] => true
  | (_, v) :: kvs => wfTree v && wfTreeDict kvs
end

/-- The template roots the executor ever passes to the indexer are dicts or
lists (`document`/`pipeline`/`filter`/`update`/`replacement` or the `{}` /
`[]` defaults). -/
def isContainer : PyVal → Bool
  | .vList _ => true
  | .vDict _ => true
  | _ => false

/-! ## General helper lemmas -/

theorem lookup_eq_none_of_not_mem {α : Type} (l : List (String × α)) (k : String)
    (h : k ∉ l.map Prod.fst) : l.lookup k = none := by
  induction l with
  | nil => rfl
  | cons hd tl ih =>
      simp only [List.map_cons, List.mem_cons] at h
      push_neg at h
      have hb : (k == hd.1) = false := beq_eq_false_iff_ne.mpr h.1
      simp [List.lookup, hb, ih h.2]

/-! ## C10: a parameter spec without a `type` field raises -/

/-- C10.  For every parameter spec dictionary with no `type` field,
`generate_param_value` raises (`param.get('type')` is `None` and
`None.lower()` raises `AttributeError` before any recognition or fallback
check), instead of returning a fallback value. -/
theorem C10_missing_type_raises (p : Param) (values : ValueSet) (o : Oracle)
    (h : pGet p "type" = none) : generateParamValue p values o = none := by
  simp [generateParamValue, h]

/-- Witness for C10 at the empty spec dict. -/
theorem C10_missing_type_raises_witness :
    generateParamValue [] [] {} = none :=
  C10_missing_type_raises [] [] {} rfl

/-! ## C6: unknown type tags degrade to a logged empty string -/

/-- C6.  For every type tag that is not a `_type_generators` key, is not
`concat` and is not a `faker.*` form, `_generate_raw_value` logs the
unknown-type warning and returns the empty string — it does not raise, so
the batch continues. -/
theorem C6_unknown_tag_fallback (t : String) (p : Param) (values : ValueSet)
    (o : Oracle) (h₁ : t ∉ typeGenerators.map Prod.fst) (h₂ : t ≠ "concat")
    (h₃ : ¬ (("faker.").data.isPrefixOf t.data)) :
    generateRawValue t p values o = (some (.vStr ""), [warnUnknownType t]) := by
  simp [generateRawValue, lookup_eq_none_of_not_mem _ _ h₁, h₂, h₃]

/-- Witness for C6 at the tag `"florp"`. -/
theorem C6_unknown_tag_fallback_witness :
    generateRawValue "florp" [] [] {} = (some (.vStr ""), [warnUnknownType "florp"]) :=
  C6_unknown_tag_fallback "florp" [] [] {} (by decide) (by decide) (by decide)

/-! ## C7: conversion failures and unknown conversion tags return the raw value -/

/-- C7.  For every raw value and output-coercion tag: if the `try` body of
`_convert_type` raises, the pre-conversion value is returned with the error
logged; and if the tag is not a recognised conversion type, the value is
returned as-is with a warning logged.  Output coercion never aborts
generation. -/
theorem C7_conversion_failure_keeps_value (v : PyVal) (t : String) (p : Param) :
    (convertTypeCore v t p = none → convertType v t p = (v, [errConvert t])) ∧
      (t ∉ knownConvTags → convertType v t p = (v, [warnUnknownConv t])) := by
  constructor
  · intro h
    simp [convertType, h]
  · intro h
    simp only [knownConvTags, List.mem_cons, List.not_mem_nil, or_false] at h
    push_neg at h
    obtain ⟨h1, h2, h3, h4, h5, h6, h7, h8, h9, h10, h11, h12⟩ := h
    simp [convertType, convertTypeCore, h1, h2, h3, h4, h5, h6, h7, h8, h9, h10, h11, h12]

/-- Witness for C7: coercing `"a-b"` to int raises inside the `try`
(`int("-")` after cleaning), and the tag `"florp"` is unrecognised; both
return the input value unchanged. -/
theorem C7_conversion_failure_keeps_value_witness :
    convertType (.vStr "a-b") "int" [] = (.vStr "a-b", [errConvert "int"]) ∧
      convertType (.vStr "x") "florp" [] = (.vStr "x", [warnUnknownConv "florp"]) :=
  ⟨(C7_conversion_failure_keeps_value (.vStr "a-b") "int" []).1 rfl,
   (C7_conversion_failure_keeps_value (.vStr "x") "florp" []).2 (by decide)⟩

/-! ## C8: `random_string` length and content -/

/-- No character of the default `random_string` alphabet is whitespace. -/
theorem defaultChars_no_whitespace : ∀ c ∈ defaultChars.data, c.isWhitespace = false := by
  decide

/-- C8 counterexample.  The claim says a `random_string` result of length
`n ≥ 1` is never all-whitespace, over every spec: but the character set is
an option, and with `chars = " "` every draw is the space character — here
a length-1 generation returns `" "`, which is all whitespace. -/
theorem C8_counterexample :
    generateRawValue "random_string" [("length", .vInt 1), ("chars", .vStr " ")] [] {} =
      (some (.vStr " "), []) ∧
      (" ").data.all (fun c => c.isWhitespace) = true := by
  constructor
  · rfl
  · decide

/-- C8 (amended).  `random_string` with integer length `n` always returns a
string of exactly `max n 0` characters (empty for `n ≤ 0`), every character
an independent draw from the configured character set; with the default
(alphanumeric) character set no character is whitespace, so for `n ≥ 1` the
result is never all-whitespace.  There is no short-length threshold: the
characters are raw independent draws at every length. -/
theorem C8_amended_random_string (p : Param) (o : Oracle) (n : Int) :
    (∀ cs : String, pGet p "length" = some (.vInt n) →
      pGet p "chars" = some (.vStr cs) → cs.data ≠ [] →
      ∃ s : String, generateRawValue "random_string" p [] o = (some (.vStr s), []) ∧
        s.data.length = n.toNat ∧ ∀ c ∈ s.data, c ∈ cs.data) ∧
    (pGet p "length" = some (.vInt n) → pGet p "chars" = none →
      ∃ s : String, generateRawValue "random_string" p [] o = (some (.vStr s), []) ∧
        s.data.length = n.toNat ∧ (1 ≤ n → s.data.all (fun c => c.isWhitespace) = false)) := by
  have hlk : typeGenerators.lookup "random_string" = some genRandomString := rfl
  constructor
  · intro cs hlen hchars hne
    have hne' : ¬ cs.length = 0 := fun hz => hne (List.length_eq_zero.mp hz)
    by_cases hn : n ≤ 0
    · refine ⟨"", ?_, ?_, ?_⟩
      · simp [generateRawValue, hlk, genRandomString, pGetD, hlen, hchars, asPyInt, hn]
      · simp [Int.toNat_of_nonpos hn]
      · intro c hc; simp at hc
    · refine ⟨String.mk ((List.range n.toNat).map (fun i =>
        cs.data.get ⟨o.randNat i % cs.data.length,
          Nat.mod_lt _ (Nat.pos_of_ne_zero (fun hz => hne (List.length_eq_zero.mp hz)))⟩)),
        ?_, ?_, ?_⟩
      · simp [generateRawValue, hlk, genRandomString, pGetD, hlen, hchars, asPyInt, hn, hne']
      · simp
      · intro c hc
        simp only [List.mem_map, List.mem_range] at hc
        obtain ⟨i, _, rfl⟩ := hc
        exact List.get_mem _ _ _
  · intro hlen hchars
    by_cases hn : n ≤ 0
    · refine ⟨"", ?_, ?_, ?_⟩
      · simp [generateRawValue, hlk, genRandomString, pGetD, hlen, hchars, asPyInt, hn]
      · simp [Int.toNat_of_nonpos hn]
      · intro h1; omega
    · have hpos : defaultChars.data.length ≠ 0 := by decide
      have hpos' : ¬ defaultChars.length = 0 := by decide
      refine ⟨String.mk ((List.range n.toNat).map (fun i =>
        defaultChars.data.get ⟨o.randNat i % defaultChars.data.length,
          Nat.mod_lt _ (Nat.pos_of_ne_zero hpos)⟩)), ?_, ?_, ?_⟩
      · simp [generateRawValue, hlk, genRandomString, pGetD, hlen, hchars, asPyInt, hn, hpos']
      · simp
      · intro _
        have hlen1 : 1 ≤ n.toNat := by omega
        rcases hn0 : (List.range n.toNat) with _ | ⟨i, is⟩
        · exfalso
          have := List.length_range n.toNat
          rw [hn0] at this
          simp at this
          omega
        · simp only [hn0, List.map_cons, List.all_cons, Bool.and_eq_false_iff]
          left
          exact defaultChars_no_whitespace _ (List.get_mem _ _ _)

/-- Witness for C8 (amended) at length 3 over `"ab"` and at length 2 over
the default character set. -/
theorem C8_amended_random_string_witness :
    (∃ s : String,
      generateRawValue "random_string" [("length", .vInt 3), ("chars", .vStr "ab")] [] {} =
        (some (.vStr s), []) ∧ s.data.length = (3 : Int).toNat ∧ ∀ c ∈ s.data, c ∈ ("ab").data) ∧
    (∃ s : String,
      generateRawValue "random_string" [("length", .vInt 2)] [] {} = (some (.vStr s), []) ∧
        s.data.length = (2 : Int).toNat ∧
        (1 ≤ (2 : Int) → s.data.all (fun c => c.isWhitespace) = false)) :=
  ⟨(C8_amended_random_string [("length", .vInt 3), ("chars", .vStr "ab")] {} 3).1
      "ab" rfl rfl (by decide),
   (C8_amended_random_string [("length", .vInt 2)] {} 2).2 rfl rfl⟩

/-! ## C9: numeric range specs -/

/-- C9 counterexample.  The claim puts every `random_float` value in the
half-open `[start, end)`: with `start = end = 1.0` the generator returns
`1.0` (`uniform(a, a) = a + 0·random() = a`), and `[1, 1)` is empty, so the
value is outside it. -/
theorem C9_counterexample :
    generateRawValue "random_float" [("start", .vFloat 1), ("end", .vFloat 1)] [] {} =
      (some (.vFloat 1), []) ∧ ¬ ((1 : Rat) ≤ 1 ∧ (1 : Rat) < 1) := by
  constructor
  · have hlk : typeGenerators.lookup "random_float" = some genRandomFloat := rfl
    simp [generateRawValue, hlk, genRandomFloat, pGetD, pGet, asPyNum]
  · simp

/-- C9 (amended).  `random_int` with integer bounds `start ≤ end` always
returns an integer in the closed `[start, end]`, and both endpoints are
attainable; `random_float` with `start < end` and `random()` in `[0, 1)`
returns a rational in the half-open `[start, end)` (in the exact real-valued
model of `uniform`; CPython rounding can additionally land on `end`), and
with `start = end` it returns exactly `start`. -/
theorem C9_amended_numeric_ranges :
    (∀ (p : Param) (o : Oracle) (a b : Int), pGet p "start" = some (.vInt a) →
      pGet p "end" = some (.vInt b) → a ≤ b →
      ∃ x : Int, generateRawValue "random_int" p [] o = (some (.vInt x), []) ∧
        a ≤ x ∧ x ≤ b) ∧
    (∀ (p : Param) (a b : Int), pGet p "start" = some (.vInt a) →
      pGet p "end" = some (.vInt b) → a ≤ b →
      (∃ o : Oracle, generateRawValue "random_int" p [] o = (some (.vInt a), [])) ∧
      (∃ o : Oracle, generateRawValue "random_int" p [] o = (some (.vInt b), []))) ∧
    (∀ (p : Param) (o : Oracle) (a b : Rat), pGet p "start" = some (.vFloat a) →
      pGet p "end" = some (.vFloat b) → 0 ≤ o.randFrac → o.randFrac < 1 → a < b →
      ∃ q : Rat, generateRawValue "random_float" p [] o = (some (.vFloat q), []) ∧
        a ≤ q ∧ q < b) ∧
    (∀ (p : Param) (o : Oracle) (a : Rat), pGet p "start" = some (.vFloat a) →
      pGet p "end" = some (.vFloat a) →
      generateRawValue "random_float" p [] o = (some (.vFloat a), [])) := by
  have hlki : typeGenerators.lookup "random_int" = some genRandomInt := rfl
  have hlkf : typeGenerators.lookup "random_float" = some genRandomFloat := rfl
  refine ⟨?_, ?_, ?_, ?_⟩
  · intro p o a b hs he hab
    refine ⟨a + (o.randNat 0 % (b - a + 1).toNat : Nat), ?_, ?_, ?_⟩
    · simp [generateRawValue, hlki, genRandomInt, pGetD, hs, he, asPyInt, hab]
    · omega
    · have hm : (b - a + 1).toNat ≠ 0 := by omega
      have := Nat.mod_lt (o.randNat 0) (Nat.pos_of_ne_zero hm)
      omega
  · intro p a b hs he hab
    constructor
    · refine ⟨{ randNat := fun _ => 0 }, ?_⟩
      simp [generateRawValue, hlki, genRandomInt, pGetD, hs, he, asPyInt, hab]
    · refine ⟨{ randNat := fun _ => (b - a).toNat }, ?_⟩
      have hm : (b - a).toNat % (b - a + 1).toNat = (b - a).toNat := by
        apply Nat.mod_eq_of_lt; omega
      simp [generateRawValue, hlki, genRandomInt, pGetD, hs, he, asPyInt, hab]
      have h2 : (b - a) % ((b - a + 1) ⊔ 0) = b - a := by
        rw [sup_eq_max, max_eq_left (by omega : (0 : Int) ≤ b - a + 1)]
        exact Int.emod_eq_of_lt (by omega) (by omega)
      rw [h2]; omega
  · intro p o a b hs he hf0 hf1 hab
    refine ⟨a + (b - a) * o.randFrac, ?_, ?_, ?_⟩
    · simp [generateRawValue, hlkf, genRandomFloat, pGetD, hs, he, asPyNum]
    · nlinarith
    · nlinarith
  · intro p o a hs he
    have : a + (a - a) * o.randFrac = a := by ring
    simp [generateRawValue, hlkf, genRandomFloat, pGetD, hs, he, asPyNum, this]

/-- Witness for C9 (amended) at `random_int` bounds `[2, 5]` and
`random_float` bounds `[0, 1]` and `[3, 3]`. -/
theorem C9_amended_numeric_ranges_witness :
    (∃ x : Int,
      generateRawValue "random_int" [("start", .vInt 2), ("end", .vInt 5)] [] {} =
        (some (.vInt x), []) ∧ 2 ≤ x ∧ x ≤ 5) ∧
    (∃ o : Oracle,
      generateRawValue "random_int" [("start", .vInt 2), ("end", .vInt 5)] [] o =
        (some (.vInt 2), [])) ∧
    (∃ q : Rat,
      generateRawValue "random_float" [("start", .vFloat 0), ("end", .vFloat 1)] []
        { randFrac := 1 / 2 } = (some (.vFloat q), []) ∧ 0 ≤ q ∧ q < 1) ∧
    (generateRawValue "random_float" [("start", .vFloat 3), ("end", .vFloat 3)] [] {} =
      (some (.vFloat 3), [])) :=
  ⟨C9_amended_numeric_ranges.1 [("start", .vInt 2), ("end", .vInt 5)] {} 2 5 rfl rfl
      (by decide),
   (C9_amended_numeric_ranges.2.1 [("start", .vInt 2), ("end", .vInt 5)] 2 5 rfl rfl
      (by decide)).1,
   C9_amended_numeric_ranges.2.2.1 [("start", .vFloat 0), ("end", .vFloat 1)]
     { randFrac := 1 / 2 } 0 1 rfl rfl (by norm_num) (by norm_num) (by norm_num),
   C9_amended_numeric_ranges.2.2.2 [("start", .vFloat 3), ("end", .vFloat 3)] {} 3 rfl rfl⟩

/-! ## C3: `concat` cross-parameter references in a batch -/

/-- C3 exhibits a bug.  `DataManager._handle_concat` does substitute
`\x7b@name\x7d` placeholders from the ValueSet it is handed (second
conjunct: with the context `id ↦ "42"` the template `"user-\x7b@id\x7d"`
becomes `"user-42"`, exactly as the claim says).  But the batch loop calls
`DataManager.generate_param_value(param)` with no second argument
(`documentdb_executor.py` line 131), so inside a batch every concat
parameter sees an *empty* context and every placeholder substitutes to the
empty string: the first conjunct runs the executor on a batch whose `id`
parameter is the constant `"42"` and whose `s` parameter is
`concat "user-\x7b@id\x7d"`, and the produced document holds `"user-"`,
not the claimed `"user-42"`. -/
theorem C3_concat_context_bug :
    (executeModel [] "t"
      ({ ctype := some "insert", batchSize := 1,
         document := .vDict [("v", .vStr "s")],
         parameters :=
           [[("name", .vStr "id"), ("type", .vStr "constant"), ("value", .vStr "42")],
            [("name", .vStr "s"), ("type", .vStr "concat"),
             ("value", .vStr "user-\x7b@id\x7d")]] } : Cmd)
      (fun _ _ => {})).1 =
      some ([.vDict [("v", .vStr "user-")]], .vDict []) ∧
    handleConcat [("value", .vStr "user-\x7b@id\x7d")] [("id", .vStr "42")] =
      some (.vStr "user-42") := by
  constructor
  · simp [executeModel, getPlan, selectTemplates, cacheKeyOf, mapAllParamPaths, paramEvents,
      paramEventsDict, paramEventsList, isStrVal, addEvent, paramName, pGet, execBatch,
      List.range_succ, buildValueSet, generateParamValue, generateRawValue, typeGenerators,
      genConstant, pyLower, pGetD, assocSet, batchStep, substituteTree, replaceAllParams,
      replaceJsonParamAtPaths, setAt, dictSet, deepcopyVal, deepcopyDict, deepcopyList,
      List.lookup, handleConcat, concatScan, takeWord, wordChar]
  · simp [handleConcat, pGetD, pGet, concatScan, takeWord, wordChar, pyStr]

/-! ## C5: the plan cache -/

theorem string_append_cancel_left {s t₁ t₂ : String} (h : s ++ t₁ = s ++ t₂) :
    t₁ = t₂ := by
  have hd : (s ++ t₁).data = (s ++ t₂).data := congrArg String.data h
  simp only [String.data_append] at hd
  have h2 := List.append_cancel_left hd
  cases t₁
  cases t₂
  exact congrArg String.mk h2

theorem assocSet_lookup_ne {α : Type} (l : List (String × α)) (k₁ k₂ : String) (v : α)
    (h : k₁ ≠ k₂) : (assocSet l k₁ v).lookup k₂ = l.lookup k₂ := by
  have hb : (k₂ == k₁) = false := beq_eq_false_iff_ne.mpr (Ne.symm h)
  induction l with
  | nil => simp [assocSet, List.lookup, hb]
  | cons hd tl ih =>
      obtain ⟨k, w⟩ := hd
      by_cases hk : k = k₁
      · subst hk
        simp [assocSet, List.lookup, hb]
      · simp only [assocSet, if_neg hk, List.lookup]
        cases hkk : (k₂ == k) <;> simp [hkk, ih]

/-- C5.  The plan cache is keyed by `f"{task}:{kind}"`.  (1) On a hit, the
call returns exactly the stored plan — structurally equal parameter list and
path maps — and leaves the cache unchanged, *whatever* command body is
passed: nothing is re-indexed.  (2) For one task, two different kinds have
different cache keys.  (3) Hence storing a plan under one kind never changes
what a request with a different kind for the same task sees. -/
theorem C5_plan_cache :
    (∀ (cache : PlanCache) (task : String) (c : Cmd) (plan : Plan),
      cache.lookup (cacheKeyOf task c.ctype) = some plan →
      getPlan cache task c = (plan, cache)) ∧
    (∀ (task k₁ k₂ : String),
      cacheKeyOf task (some k₁) = cacheKeyOf task (some k₂) → k₁ = k₂) ∧
    (∀ (cache : PlanCache) (task k₁ k₂ : String) (plan : Plan), k₁ ≠ k₂ →
      (assocSet cache (cacheKeyOf task (some k₁)) plan).lookup
          (cacheKeyOf task (some k₂)) =
        cache.lookup (cacheKeyOf task (some k₂))) := by
  refine ⟨?_, ?_, ?_⟩
  · intro cache task c plan h
    simp [getPlan, h]
  · intro task k₁ k₂ h
    exact string_append_cancel_left h
  · intro cache task k₁ k₂ plan h
    apply assocSet_lookup_ne
    intro he
    exact h (string_append_cancel_left he)

/-- Witness for C5: a hit on the stored key returns the stored plan with the
cache untouched; `update` vs `replace` keys for one task do not interfere. -/
theorem C5_plan_cache_witness :
    getPlan [("t:update", Plan.mk [] [] [] [])] "t" ({ ctype := some "update" } : Cmd) =
      (Plan.mk [] [] [] [], [("t:update", Plan.mk [] [] [] [])]) ∧
    ("update" : String) = "update" ∧
    (assocSet [] (cacheKeyOf "t" (some "update")) (Plan.mk [] [] [] [])).lookup
        (cacheKeyOf "t" (some "replace")) =
      ([] : PlanCache).lookup (cacheKeyOf "t" (some "replace")) :=
  ⟨C5_plan_cache.1 [("t:update", Plan.mk [] [] [] [])] "t" { ctype := some "update" }
      (Plan.mk [] [] [] []) (by simp [cacheKeyOf, List.lookup]),
   C5_plan_cache.2.1 "t" "update" "update" rfl,
   C5_plan_cache.2.2 [] "t" "update" "replace" (Plan.mk [] [] [] []) (by decide)⟩

/-! ## C4: substitution with `deepcopy_obj = True` never mutates its input -/

mutual
theorem deepcopyVal_id : ∀ t : PyVal, deepcopyVal t = t
  | .vNone => rfl
  | .vBool _ => rfl
  | .vInt _ => rfl
  | .vFloat _ => rfl
  | .vStr _ => rfl
  | .vBytes _ => rfl
  | .vUuid _ => rfl
  | .vOid _ => rfl
  | .vDT _ _ _ _ _ _ _ => rfl
  | .vList xs => by simp [deepcopyVal, deepcopyList_id xs]
  | .vDict kvs => by simp [deepcopyVal, deepcopyDict_id kvs]

theorem deepcopyList_id : ∀ xs : List PyVal, deepcopyList xs = xs
  | [] => rfl
  | x :: xs => by simp [deepcopyList, deepcopyVal_id x, deepcopyList_id xs]

theorem deepcopyDict_id : ∀ kvs : List (String × PyVal), deepcopyDict kvs = kvs
  | [] => rfl
  | (k, v) :: kvs => by simp [deepcopyDict, deepcopyVal_id v, deepcopyDict_id kvs]
end

/-- C4.  `_replace_all_params` with `deepcopy_obj = True` (the default, and
what `execute` uses) never mutates its input: in the state-passing model the
caller's template after the call is exactly the template before it, and the
returned tree is the same tree the destructive (`False`) variant would have
produced — the deep copy is structurally faithful, so copying changes the
output in no way, it only shields the cached original. -/
theorem C4_substitution_never_mutates_input (obj : PyVal)
    (ppd : List (String × List PPath)) (vals : String → Option PyVal) :
    replaceAllParams obj ppd vals true =
      (replaceAllParams obj ppd vals false).map (fun r => (obj, r.2)) := by
  simp only [replaceAllParams, if_true, if_false, deepcopyVal_id, Bool.false_eq_true]
  cases ppd.foldlM (fun o (pr : String × List PPath) =>
      (vals pr.1).bind (fun v => replaceJsonParamAtPaths o pr.2 v)) obj <;> simp

/-! ## C2: batch building -/

theorem option_foldlM_concat {σ α : Type} (f : σ → α → Option σ) (b : σ)
    (l : List α) (a : α) :
    List.foldlM f b (l ++ [a]) = (List.foldlM f b l).bind (fun s => f s a) := by
  rw [List.foldlM_append]
  cases hl : List.foldlM f b l
  · rfl
  · show (List.foldlM f _ [a]) = _
    simp [List.foldlM]

/-- Characterisation of the batch loop: a successful run of `n` repetitions
produces one body per repetition — body `i` substituted with repetition
`i`'s freshly generated ValueSet — and leaves the `n`-th repetition's
ValueSet in the loop variable. -/
theorem execBatch_loop (jt : PyVal) (ppd : List (String × List PPath))
    (ps : List Param) (os : Nat → Nat → Oracle) :
    ∀ (n : Nat) (bulk : List PyVal) (last : Option ValueSet),
      (List.range n).foldlM (batchStep jt ppd ps os)
          (([], none) : List PyVal × Option ValueSet) = some (bulk, last) →
      bulk.length = n ∧
      (∀ i, i < n → ∃ vs, buildValueSet ps (os i) = some vs ∧
        substituteTree jt ppd (fun nm => vs.lookup nm) = bulk[i]?) ∧
      (1 ≤ n → ∃ vs, buildValueSet ps (os (n - 1)) = some vs ∧ last = some vs) := by
  intro n
  induction n with
  | zero =>
      intro bulk last h
      simp only [List.range_zero, List.foldlM_nil, Option.pure_def, Option.some.injEq,
        Prod.mk.injEq] at h
      exact ⟨by simp [← h.1], fun i hi => absurd hi (by omega), fun h1 => absurd h1 (by omega)⟩
  | succ n ih =>
      intro bulk last h
      rw [List.range_succ, option_foldlM_concat, Option.bind_eq_some] at h
      obtain ⟨⟨bulk₀, last₀⟩, hfold, hstep⟩ := h
      simp only [batchStep, Option.bind_eq_some, Option.map_eq_some', Option.some.injEq,
        Prod.mk.injEq] at hstep
      obtain ⟨pv, hpv, fc, hfc, hb, hl⟩ := hstep
      obtain ⟨ih1, ih2, _⟩ := ih bulk₀ last₀ hfold
      refine ⟨by simp [← hb, ih1], ?_, ?_⟩
      · intro i hi
        rcases Nat.lt_succ_iff_lt_or_eq.mp hi with hlt | heq
        · obtain ⟨vs, hv, hs⟩ := ih2 i hlt
          refine ⟨vs, hv, ?_⟩
          rw [hs, ← hb, List.getElem?_append_left (by omega)]
        · subst heq
          refine ⟨pv, hpv, ?_⟩
          rw [← hb, ← ih1, List.getElem?_concat_length, hfc]
      · intro _
        exact ⟨pv, by simpa using hpv, by simp [← hl]⟩

/-- C2.  For every command definition with `batchSize = n ≥ 1`, one
successful `execute` invocation generates `n` fresh ValueSets (one per
repetition, from that repetition's own generator calls) and produces
exactly `n` concrete primary bodies — body `i` substituted into the
kind-selected primary template (document for insert, pipeline for
aggregate, filter for find/delete/update/replace) with repetition `i`'s
ValueSet — while the secondary body is substituted using only the final,
`n`-th repetition's ValueSet (Python's loop variable leaks out of the
loop; the spec flags this deliberately unsymmetric reuse, and the code
indeed does it).  The last conjunct pins the template selection down for
the update/replace kinds, where the secondary body is the
update/replacement template of the command. -/
theorem C2_batch_bodies (cache : PlanCache) (task : String) (c : Cmd)
    (os : Nat → Nat → Oracle) (bulk : List PyVal) (upd : PyVal)
    (hn : 1 ≤ c.batchSize.toNat)
    (hex : (executeModel cache task c os).1 = some (bulk, upd)) :
    bulk.length = c.batchSize.toNat ∧
    (∀ i, i < c.batchSize.toNat →
      ∃ vs, buildValueSet (getPlan cache task c).1.parameters (os i) = some vs ∧
        substituteTree (selectTemplates c).1 (getPlan cache task c).1.param_paths_dict
          (fun nm => vs.lookup nm) = bulk[i]?) ∧
    (∃ vs, buildValueSet (getPlan cache task c).1.parameters
        (os (c.batchSize.toNat - 1)) = some vs ∧
      substituteTree (selectTemplates c).2
        (getPlan cache task c).1.param_paths_dict_upd
        (fun nm => vs.lookup nm) = some upd) ∧
    (∀ k, c.ctype = some k → k = "update" ∨ k = "replace" →
      (selectTemplates c).1 = c.filter ∧
      (selectTemplates c).2 =
        (if k = "update" then c.update else c.replacement)) := by
  simp only [executeModel] at hex
  rw [execBatch] at hex
  rw [Option.bind_eq_some] at hex
  obtain ⟨⟨bulk₀, last₀⟩, hfold, hex2⟩ := hex
  rw [Option.bind_eq_some] at hex2
  obtain ⟨pv, hlast0, hex3⟩ := hex2
  simp only [Option.map_eq_some', Prod.mk.injEq] at hex3
  obtain ⟨upd₀, hupd, hbu1, hbu2⟩ := hex3
  subst hlast0
  obtain ⟨h1, h2, h3⟩ :=
    execBatch_loop (selectTemplates c).1 (getPlan cache task c).1.param_paths_dict
      (getPlan cache task c).1.parameters os c.batchSize.toNat bulk₀ (some pv) hfold
  obtain ⟨vs, hvs, hlast⟩ := h3 hn
  have hpv : pv = vs := Option.some.inj hlast
  refine ⟨hbu1 ▸ h1, fun i hi => hbu1 ▸ h2 i hi,
    ⟨vs, hvs, by rw [← hpv, hupd, hbu2]⟩, ?_⟩
  intro k hk hkk
  rcases hkk with hu | hr
  · subst hu
    simp [selectTemplates, hk]
  · subst hr
    simp [selectTemplates, hk]

/-- The concrete update command of the C2 witness: batch of 2, filter
`\x7b"_id": "k"\x7d`, update `\x7b"$set": \x7b"v": "k"\x7d\x7d`, one
`unix_timestamp` parameter named `k`. -/
def c2cmd : Cmd :=
  { ctype := some "update", batchSize := 2,
    filter := .vDict [("_id", .vStr "k")],
    update := .vDict [("$set", .vDict [("v", .vStr "k")])],
    parameters := [[("name", .vStr "k"), ("type", .vStr "unix_timestamp")]] }

/-- The oracle family of the C2 witness: repetition `i` sees epoch second `i`. -/
def c2os : Nat → Nat → Oracle := fun i _ => { nowEpoch := i }

/-- Witness for C2 at `c2cmd`: the batch has the claimed shape (two filter
bodies, one per repetition's ValueSet, and an update body from the last
repetition's ValueSet). -/
theorem C2_batch_bodies_witness :
    ([PyVal.vDict [("_id", .vInt 0)], PyVal.vDict [("_id", .vInt 1)]].length =
        c2cmd.batchSize.toNat) ∧
    (∀ i, i < c2cmd.batchSize.toNat →
      ∃ vs, buildValueSet (getPlan [] "t" c2cmd).1.parameters (c2os i) = some vs ∧
        substituteTree (selectTemplates c2cmd).1
          (getPlan [] "t" c2cmd).1.param_paths_dict
          (fun nm => vs.lookup nm) =
          [PyVal.vDict [("_id", .vInt 0)], PyVal.vDict [("_id", .vInt 1)]][i]?) ∧
    (∃ vs, buildValueSet (getPlan [] "t" c2cmd).1.parameters
        (c2os (c2cmd.batchSize.toNat - 1)) = some vs ∧
      substituteTree (selectTemplates c2cmd).2
        (getPlan [] "t" c2cmd).1.param_paths_dict_upd
        (fun nm => vs.lookup nm) = some (.vDict [("$set", .vDict [("v", .vInt 1)])])) ∧
    (∀ k, c2cmd.ctype = some k → k = "update" ∨ k = "replace" →
      (selectTemplates c2cmd).1 = c2cmd.filter ∧
      (selectTemplates c2cmd).2 =
        (if k = "update" then c2cmd.update else c2cmd.replacement)) :=
  C2_batch_bodies [] "t" c2cmd c2os
    [PyVal.vDict [("_id", .vInt 0)], PyVal.vDict [("_id", .vInt 1)]]
    (.vDict [("$set", .vDict [("v", .vInt 1)])]) (by decide)
    (by simp [executeModel, getPlan, selectTemplates, cacheKeyOf, mapAllParamPaths,
      paramEvents, paramEventsDict, paramEventsList, isStrVal, addEvent, paramName, pGet,
      execBatch, List.range_succ, buildValueSet, generateParamValue, generateRawValue,
      typeGenerators, genUnixTimestamp, pyLower, pGetD, assocSet, batchStep, substituteTree,
      replaceAllParams, replaceJsonParamAtPaths, setAt, dictSet, deepcopyVal, deepcopyDict,
      deepcopyList, List.lookup, c2cmd, c2os])

/-! ## C1: round-trip of indexing and substitution

Proof layer.  `findPaths n pre t` is the per-name DFS site list the indexer
records for one name (the grouped dict built by `mapAllParamPaths` is proven
below to carry exactly these lists); `occursIn` is the matching occurrence
test; the `applyUpds`/`childApply` machinery decomposes the sequential
path writes of the substitutor child by child. -/

mutual
/-- All paths at which the indexer records the name `n` under the prefix
`pre`, in DFS order. -/
def findPaths (n : String) (pre : PPath) : PyVal → List PPath
  | .vDict kvs => findPathsDict n pre kvs
  | .vList xs => findPathsList n pre 0 xs
  | _ => []

def findPathsDict (n : String) (pre : PPath) : List (String × PyVal) → List PPath
  | [] => []
  | (k, v) :: rest =>
      (if isStrVal v n then [pre ++ [.fld k]] else []) ++
        findPaths n (pre ++ [.fld k]) v ++ findPathsDict n pre rest

def findPathsList (n : String) (pre : PPath) (i : Nat) : List PyVal → List PPath
  | [] => []
  | v :: rest =>
      (if isStrVal v n then [pre ++ [.idx i]] else []) ++
        findPaths n (pre ++ [.idx i]) v ++ findPathsList n pre (i + 1) rest
end

mutual
/-- Does some dict entry or list element below `t` equal the string `n`? -/
def occursIn (n : String) : PyVal → Bool
  | .vDict kvs => occursInDict n kvs
  | .vList xs => occursInList n xs
  | _ => false

def occursInDict (n : String) : List (String × PyVal) → Bool
  | [] => false
  | (_, v) :: rest => isStrVal v n || occursIn n v || occursInDict n rest

def occursInList (n : String) : List PyVal → Bool
  | [] => false
  | v :: rest => isStrVal v n || occursIn n v || occursInList n rest
end

/-- Sequential application of path writes (the flattened form of the
substitutor's nested folds). -/
def applyUpds (t : PyVal) (us : List (PPath × PyVal)) : Option PyVal :=
  us.foldlM (fun o u => setAt o u.1 u.2) t

/-- One write as seen from a child: an empty remaining path replaces the
child wholesale (the parent performed `target[k] = value`), a non-empty one
descends. -/
def childStep (cv : PyVal) (u : PPath × PyVal) : Option PyVal :=
  if u.1.isEmpty then some u.2 else setAt cv u.1 u.2

/-- Sequential child-level writes. -/
def childApply (cv : PyVal) (ops : List (PPath × PyVal)) : Option PyVal :=
  ops.foldlM childStep cv

/-- The writes of `us` that route into the dict entry `k`, with the leading
key stripped. -/
def tailsForD (us : List (PPath × PyVal)) (k : String) : List (PPath × PyVal) :=
  us.filterMap (fun u =>
    match u.1 with
    | .fld k' :: tl => if k' = k then some (tl, u.2) else none
    | _ => none)

/-- The writes of `us` that route into list index `i`, with the leading
index stripped. -/
def tailsForI (us : List (PPath × PyVal)) (i : Nat) : List (PPath × PyVal) :=
  us.filterMap (fun u =>
    match u.1 with
    | .idx i' :: tl => if i' = i then some (tl, u.2) else none
    | _ => none)

/-- Apply to every dict entry the child-level writes routed to its key. -/
def applyToChildrenD (us : List (PPath × PyVal)) :
    List (String × PyVal) → Option (List (String × PyVal))
  | [] => some []
  | (k, cv) :: rest =>
      (childApply cv (tailsForD us k)).bind (fun c2 =>
        (applyToChildrenD us rest).map (fun r2 => (k, c2) :: r2))

/-- Apply to every list element (numbered from `i`) the child-level writes
routed to its index. -/
def applyToChildrenI (us : List (PPath × PyVal)) (i : Nat) :
    List PyVal → Option (List PyVal)
  | [] => some []
  | cv :: rest =>
      (childApply cv (tailsForI us i)).bind (fun c2 =>
        (applyToChildrenI us (i + 1) rest).map (fun r2 => c2 :: r2))

/-- The flattened write list of one substitution call: for each name of
`ms` in order, its recorded paths with that name's value. -/
def updsFor (t : PyVal) (ms : List String) (V : String → PyVal) :
    List (PPath × PyVal) :=
  ms.flatMap (fun n => (findPaths n [] t).map (fun p => (p, V n)))

/-- The child-level writes one child receives across the whole
substitution: its wholesale replacement when it is a matching placeholder,
and the stripped sub-paths of its own subtree. -/
def childOpsFor (cv : PyVal) (ms : List String) (V : String → PyVal) :
    List (PPath × PyVal) :=
  ms.flatMap (fun n =>
    (if isStrVal cv n then [(([] : PPath), V n)] else []) ++
      (findPaths n [] cv).map (fun p => (p, V n)))

theorem applyUpds_nil (t : PyVal) : applyUpds t [] = some t := rfl

theorem applyUpds_cons (t : PyVal) (u : PPath × PyVal) (us : List (PPath × PyVal)) :
    applyUpds t (u :: us) = (setAt t u.1 u.2).bind (fun t2 => applyUpds t2 us) := by
  cases h : setAt t u.1 u.2 <;> simp [applyUpds, List.foldlM_cons, h]

theorem applyUpds_append (t : PyVal) (us₁ us₂ : List (PPath × PyVal)) :
    applyUpds t (us₁ ++ us₂) = (applyUpds t us₁).bind (fun t2 => applyUpds t2 us₂) := by
  induction us₁ generalizing t with
  | nil => simp [applyUpds_nil]
  | cons u us ih =>
      rw [List.cons_append, applyUpds_cons, applyUpds_cons]
      cases setAt t u.1 u.2 <;> simp [ih]

theorem childApply_nil (cv : PyVal) : childApply cv [] = some cv := rfl

theorem childApply_cons (cv : PyVal) (u : PPath × PyVal) (ops : List (PPath × PyVal)) :
    childApply cv (u :: ops) = (childStep cv u).bind (fun c2 => childApply c2 ops) := by
  cases h : childStep cv u <;> simp [childApply, List.foldlM_cons, h]

theorem childApply_append (cv : PyVal) (ops₁ ops₂ : List (PPath × PyVal)) :
    childApply cv (ops₁ ++ ops₂) =
      (childApply cv ops₁).bind (fun c2 => childApply c2 ops₂) := by
  induction ops₁ generalizing cv with
  | nil => simp [childApply_nil]
  | cons u ops ih =>
      rw [List.cons_append, childApply_cons, childApply_cons]
      cases childStep cv u <;> simp [ih]

/-- Away from the empty path, a child-level write is just `setAt`. -/
theorem childApply_eq_applyUpds (cv : PyVal) (ops : List (PPath × PyVal))
    (h : ∀ u ∈ ops, u.1 ≠ []) : childApply cv ops = applyUpds cv ops := by
  induction ops generalizing cv with
  | nil => rfl
  | cons u ops ih =>
      rw [childApply_cons, applyUpds_cons]
      have hu : childStep cv u = setAt cv u.1 u.2 := by
        have : ¬ u.1.isEmpty := by
          cases hu1 : u.1
          · exact absurd rfl (hu1 ▸ h u (by simp))
          · simp
        simp [childStep, this]
      rw [hu]
      cases setAt cv u.1 u.2 <;> simp [ih _ (fun v hv => h v (by simp [hv]))]

mutual
theorem findPaths_pre (n : String) (pre : PPath) :
    ∀ t : PyVal, findPaths n pre t = (findPaths n [] t).map (fun p => pre ++ p)
  | .vDict kvs => by simp [findPaths, findPathsDict_pre n pre kvs]
  | .vList xs => by simp [findPaths, findPathsList_pre n pre 0 xs]
  | .vNone => by simp [findPaths]
  | .vBool _ => by simp [findPaths]
  | .vInt _ => by simp [findPaths]
  | .vFloat _ => by simp [findPaths]
  | .vStr _ => by simp [findPaths]
  | .vBytes _ => by simp [findPaths]
  | .vUuid _ => by simp [findPaths]
  | .vOid _ => by simp [findPaths]
  | .vDT _ _ _ _ _ _ _ => by simp [findPaths]

theorem findPathsDict_pre (n : String) (pre : PPath) :
    ∀ kvs : List (String × PyVal),
      findPathsDict n pre kvs = (findPathsDict n [] kvs).map (fun p => pre ++ p)
  | [] => by simp [findPathsDict]
  | (k, v) :: rest => by
      rw [findPathsDict, findPathsDict]
      rw [findPaths_pre n (pre ++ [PathKey.fld k]) v, findPaths_pre n ([] ++ [PathKey.fld k]) v,
        findPathsDict_pre n pre rest]
      by_cases hm : isStrVal v n <;>
        simp [hm, List.map_map, Function.comp_def, List.append_assoc]

theorem findPathsList_pre (n : String) (pre : PPath) (i : Nat) :
    ∀ xs : List PyVal,
      findPathsList n pre i xs = (findPathsList n [] i xs).map (fun p => pre ++ p)
  | [] => by simp [findPathsList]
  | v :: rest => by
      rw [findPathsList, findPathsList]
      rw [findPaths_pre n (pre ++ [PathKey.idx i]) v, findPaths_pre n ([] ++ [PathKey.idx i]) v,
        findPathsList_pre n pre (i + 1) rest]
      by_cases hm : isStrVal v n <;>
        simp [hm, List.map_map, Function.comp_def, List.append_assoc]
end

theorem pGet_eq_some_of_mem (kvs : List (String × PyVal)) (k : String)
    (h : k ∈ kvs.map Prod.fst) : ∃ cv, pGet kvs k = some cv := by
  induction kvs with
  | nil => simp at h
  | cons hd tl ih =>
      obtain ⟨k1, v1⟩ := hd
      by_cases hk : k1 = k
      · exact ⟨v1, by simp [pGet, hk]⟩
      · simp only [List.map_cons, List.mem_cons] at h
        rcases h with h | h
        · exact absurd h.symm hk
        · obtain ⟨cv, hcv⟩ := ih h
          exact ⟨cv, by simp [pGet, hk, hcv]⟩

theorem dictSet_keys (kvs : List (String × PyVal)) (k : String) (v : PyVal)
    (h : k ∈ kvs.map Prod.fst) :
    (dictSet kvs k v).map Prod.fst = kvs.map Prod.fst := by
  induction kvs with
  | nil => simp at h
  | cons hd tl ih =>
      obtain ⟨k1, v1⟩ := hd
      by_cases hk : k1 = k
      · simp [dictSet, hk]
      · simp only [List.map_cons, List.mem_cons] at h
        rcases h with h | h
        · exact absurd h.symm hk
        · simp [dictSet, hk, ih h]

theorem setAt_dict (kvs : List (String × PyVal)) (k : String) (tl : PPath) (v : PyVal)
    (h : k ∈ kvs.map Prod.fst) :
    setAt (.vDict kvs) (.fld k :: tl) v =
      (pGet kvs k).bind (fun cv =>
        (childStep cv (tl, v)).map (fun c2 => .vDict (dictSet kvs k c2))) := by
  obtain ⟨cv, hcv⟩ := pGet_eq_some_of_mem kvs k h
  cases tl with
  | nil => simp [setAt, hcv, childStep]
  | cons p tl => simp [setAt, hcv, childStep]

theorem setAt_list (xs : List PyVal) (i : Nat) (tl : PPath) (v : PyVal)
    (h : i < xs.length) :
    setAt (.vList xs) (.idx i :: tl) v =
      (xs.get? i).bind (fun cv =>
        (childStep cv (tl, v)).map (fun c2 => .vList (xs.set i c2))) := by
  cases tl with
  | nil => simp [setAt, h, childStep, List.get?_eq_getElem?, List.getElem?_eq_getElem h]
  | cons p tl => simp [setAt, childStep, List.get?_eq_getElem?, List.getElem?_eq_getElem h]

theorem findPathsDict_shape (n : String) :
    ∀ (kvs : List (String × PyVal)) (p : PPath), p ∈ findPathsDict n [] kvs →
      ∃ k tl, p = PathKey.fld k :: tl ∧ k ∈ kvs.map Prod.fst := by
  intro kvs
  induction kvs with
  | nil => intro p hp; simp [findPathsDict] at hp
  | cons hd rest ih =>
      obtain ⟨k, v⟩ := hd
      intro p hp
      rw [findPathsDict, findPaths_pre n ([] ++ [PathKey.fld k]) v] at hp
      simp only [List.append_assoc, List.mem_append] at hp
      rcases hp with hp | hp | hp
      · refine ⟨k, [], ?_, by simp⟩
        rcases hm : isStrVal v n with _ | _ <;> rw [hm] at hp <;> simp at hp
        exact hp
      · simp only [List.mem_map] at hp
        obtain ⟨q, _, rfl⟩ := hp
        exact ⟨k, q, by simp, by simp⟩
      · obtain ⟨k2, tl, hp1, hp2⟩ := ih p hp
        exact ⟨k2, tl, hp1, by simp [hp2]⟩

theorem findPathsList_shape (n : String) :
    ∀ (xs : List PyVal) (i₀ : Nat) (p : PPath), p ∈ findPathsList n [] i₀ xs →
      ∃ j tl, p = PathKey.idx j :: tl ∧ i₀ ≤ j ∧ j < i₀ + xs.length := by
  intro xs
  induction xs with
  | nil => intro i₀ p hp; simp [findPathsList] at hp
  | cons v rest ih =>
      intro i₀ p hp
      rw [findPathsList, findPaths_pre n ([] ++ [PathKey.idx i₀]) v] at hp
      simp only [List.append_assoc, List.mem_append] at hp
      rcases hp with hp | hp | hp
      · refine ⟨i₀, [], ?_, by omega, by simp only [List.length_cons]; omega⟩
        rcases hm : isStrVal v n with _ | _ <;> rw [hm] at hp <;> simp at hp
        exact hp
      · simp only [List.mem_map] at hp
        obtain ⟨q, _, rfl⟩ := hp
        exact ⟨i₀, q, by simp, by omega, by simp only [List.length_cons]; omega⟩
      · obtain ⟨j, tl, hp1, hp2, hp3⟩ := ih (i₀ + 1) p hp
        refine ⟨j, tl, hp1, by omega, by simp at hp3 ⊢; omega⟩

theorem tailsForD_append (us₁ us₂ : List (PPath × PyVal)) (k : String) :
    tailsForD (us₁ ++ us₂) k = tailsForD us₁ k ++ tailsForD us₂ k :=
  List.filterMap_append ..

theorem tailsForI_append (us₁ us₂ : List (PPath × PyVal)) (i : Nat) :
    tailsForI (us₁ ++ us₂) i = tailsForI us₁ i ++ tailsForI us₂ i :=
  List.filterMap_append ..

theorem tailsForD_cons_eq (k : String) (tl : PPath) (v : PyVal)
    (us : List (PPath × PyVal)) :
    tailsForD ((⟨PathKey.fld k :: tl, v⟩ : PPath × PyVal) :: us) k =
      (tl, v) :: tailsForD us k := by
  simp [tailsForD]

theorem tailsForD_cons_ne (k k' : String) (tl : PPath) (v : PyVal)
    (us : List (PPath × PyVal)) (h : k' ≠ k) :
    tailsForD ((⟨PathKey.fld k' :: tl, v⟩ : PPath × PyVal) :: us) k = tailsForD us k := by
  simp [tailsForD, h]

theorem tailsForI_cons_eq (i : Nat) (tl : PPath) (v : PyVal)
    (us : List (PPath × PyVal)) :
    tailsForI ((⟨PathKey.idx i :: tl, v⟩ : PPath × PyVal) :: us) i =
      (tl, v) :: tailsForI us i := by
  simp [tailsForI]

theorem tailsForI_cons_ne (i i' : Nat) (tl : PPath) (v : PyVal)
    (us : List (PPath × PyVal)) (h : i' ≠ i) :
    tailsForI ((⟨PathKey.idx i' :: tl, v⟩ : PPath × PyVal) :: us) i = tailsForI us i := by
  simp [tailsForI, h]

theorem applyToChildrenD_congr (us₁ us₂ : List (PPath × PyVal)) :
    ∀ kvs : List (String × PyVal),
      (∀ kc ∈ kvs, tailsForD us₁ (Prod.fst kc) = tailsForD us₂ (Prod.fst kc)) →
      applyToChildrenD us₁ kvs = applyToChildrenD us₂ kvs := by
  intro kvs
  induction kvs with
  | nil => intro _; rfl
  | cons hd rest ih =>
      obtain ⟨k, cv⟩ := hd
      intro h
      rw [applyToChildrenD, applyToChildrenD, h (k, cv) (by simp),
        ih (fun kc hkc => h kc (by simp [hkc]))]

theorem applyToChildrenI_congr (us₁ us₂ : List (PPath × PyVal)) :
    ∀ (xs : List PyVal) (i₀ : Nat),
      (∀ j, j < xs.length → tailsForI us₁ (i₀ + j) = tailsForI us₂ (i₀ + j)) →
      applyToChildrenI us₁ i₀ xs = applyToChildrenI us₂ i₀ xs := by
  intro xs
  induction xs with
  | nil => intro _ _; rfl
  | cons cv rest ih =>
      intro i₀ h
      have h0 := h 0 (by simp)
      simp only [Nat.add_zero] at h0
      rw [applyToChildrenI, applyToChildrenI, h0,
        ih (i₀ + 1) (fun j hj => by
          have := h (j + 1) (by simp; omega)
          rwa [show i₀ + (j + 1) = i₀ + 1 + j by omega] at this)]

theorem applyToChildrenD_nil : ∀ kvs : List (String × PyVal),
    applyToChildrenD [] kvs = some kvs := by
  intro kvs
  induction kvs with
  | nil => rfl
  | cons hd rest ih =>
      obtain ⟨k, cv⟩ := hd
      rw [applyToChildrenD]
      simp [tailsForD, childApply_nil, ih]

theorem applyToChildrenI_nil : ∀ (xs : List PyVal) (i₀ : Nat),
    applyToChildrenI [] i₀ xs = some xs := by
  intro xs
  induction xs with
  | nil => intro _; rfl
  | cons cv rest ih =>
      intro i₀
      rw [applyToChildrenI]
      simp [tailsForI, childApply_nil, ih]

theorem dictSet_cons_eq (k : String) (gv v : PyVal) (kvs : List (String × PyVal)) :
    dictSet ((k, gv) :: kvs) k v = (k, v) :: kvs := by
  simp [dictSet]

theorem dictSet_cons_ne (k key : String) (gv : PyVal)
    (kvs : List (String × PyVal)) (h : k ≠ key) :
    ∀ v, dictSet ((k, gv) :: kvs) key v = (k, gv) :: dictSet kvs key v := by
  intro v
  simp [dictSet, h]

theorem applyToChildrenD_step (k₀ : String) (cv : PyVal) (tl₀ : PPath) (v : PyVal)
    (rest : List (PPath × PyVal)) :
    ∀ kvs : List (String × PyVal), (kvs.map Prod.fst).Nodup →
      pGet kvs k₀ = some cv →
      applyToChildrenD ((⟨PathKey.fld k₀ :: tl₀, v⟩ : PPath × PyVal) :: rest) kvs =
        (childStep cv (tl₀, v)).bind
          (fun c2 => applyToChildrenD rest (dictSet kvs k₀ c2)) := by
  intro kvs
  induction kvs with
  | nil => intro _ hget; simp [pGet] at hget
  | cons hd kvs' ih =>
      obtain ⟨k, gv⟩ := hd
      intro hnd hget
      by_cases hk : k = k₀
      · subst hk
        rw [pGet, if_pos rfl] at hget
        obtain rfl : gv = cv := Option.some.inj hget
        have hknotin : k ∉ kvs'.map Prod.fst := by
          simp only [List.map_cons, List.nodup_cons] at hnd
          exact hnd.1
        have hnoroute : applyToChildrenD
            ((⟨PathKey.fld k :: tl₀, v⟩ : PPath × PyVal) :: rest) kvs' =
            applyToChildrenD rest kvs' := by
          apply applyToChildrenD_congr
          intro kc hkc
          have hne : kc.1 ≠ k := fun he =>
            hknotin (he ▸ List.mem_map.mpr ⟨kc, hkc, rfl⟩)
          exact tailsForD_cons_ne kc.1 k tl₀ v rest (Ne.symm hne)
        rw [applyToChildrenD, tailsForD_cons_eq, childApply_cons, hnoroute]
        simp only [dictSet_cons_eq]
        cases childStep gv (tl₀, v) with
        | none => simp
        | some c2 => simp [applyToChildrenD]
      · rw [pGet, if_neg hk] at hget
        have hnd' : (kvs'.map Prod.fst).Nodup := by
          simp only [List.map_cons, List.nodup_cons] at hnd
          exact hnd.2
        rw [applyToChildrenD, tailsForD_cons_ne k k₀ tl₀ v rest (Ne.symm hk),
          ih hnd' hget]
        simp only [dictSet_cons_ne k k₀ gv kvs' hk, applyToChildrenD]
        cases childStep cv (tl₀, v) with
        | none => simp
        | some c2 =>
            cases childApply gv (tailsForD rest k) <;> simp

theorem applyToChildrenI_step (tl₀ : PPath) (v : PyVal) (rest : List (PPath × PyVal)) :
    ∀ (xs : List PyVal) (i₀ j : Nat) (hj : j < xs.length),
      applyToChildrenI ((⟨PathKey.idx (i₀ + j) :: tl₀, v⟩ : PPath × PyVal) :: rest) i₀ xs =
        (childStep (xs.get ⟨j, hj⟩) (tl₀, v)).bind
          (fun c2 => applyToChildrenI rest i₀ (xs.set j c2)) := by
  intro xs
  induction xs with
  | nil => intro i₀ j hj; simp at hj
  | cons cv xs' ih =>
      intro i₀ j hj
      cases j with
      | zero =>
          have hnoroute : applyToChildrenI
              ((⟨PathKey.idx (i₀ + 0) :: tl₀, v⟩ : PPath × PyVal) :: rest) (i₀ + 1) xs' =
              applyToChildrenI rest (i₀ + 1) xs' := by
            apply applyToChildrenI_congr
            intro j' _
            exact tailsForI_cons_ne (i₀ + 1 + j') (i₀ + 0) tl₀ v rest (by omega)
          have ht : tailsForI ((⟨PathKey.idx (i₀ + 0) :: tl₀, v⟩ : PPath × PyVal) :: rest) i₀ =
              (tl₀, v) :: tailsForI rest i₀ := by
            have h0 := tailsForI_cons_eq i₀ tl₀ v rest
            simpa using h0
          have hget0 : (cv :: xs').get ⟨0, hj⟩ = cv := rfl
          rw [applyToChildrenI, hnoroute, ht, childApply_cons, hget0]
          simp only [List.set_cons_zero]
          cases childStep cv (tl₀, v) with
          | none => simp
          | some c2 => simp [applyToChildrenI]
      | succ j' =>
          have hj' : j' < xs'.length := by simpa using hj
          have hgets : (cv :: xs').get ⟨j' + 1, hj⟩ = xs'.get ⟨j', hj'⟩ := rfl
          rw [applyToChildrenI,
            tailsForI_cons_ne i₀ (i₀ + (j' + 1)) tl₀ v rest (by omega), hgets]
          have hidx : i₀ + (j' + 1) = (i₀ + 1) + j' := by omega
          rw [hidx, ih (i₀ + 1) j' hj']
          simp only [List.set_cons_succ, applyToChildrenI]
          cases childStep (xs'.get ⟨j', hj'⟩) (tl₀, v) with
          | none => simp
          | some c2 =>
              cases childApply cv (tailsForI rest i₀) <;> simp

theorem routeD : ∀ (us : List (PPath × PyVal)) (kvs : List (String × PyVal)),
    (kvs.map Prod.fst).Nodup →
    (∀ u ∈ us, ∃ k tl, u.1 = PathKey.fld k :: tl ∧ k ∈ kvs.map Prod.fst) →
    applyUpds (.vDict kvs) us = (applyToChildrenD us kvs).map PyVal.vDict := by
  intro us
  induction us with
  | nil => intro kvs _ _; simp [applyUpds_nil, applyToChildrenD_nil]
  | cons u us' ih =>
      intro kvs hnd hsh
      obtain ⟨k₀, tl₀, hu1, hk₀⟩ := hsh u (by simp)
      obtain ⟨up, uv⟩ := u
      simp only at hu1
      subst hu1
      obtain ⟨cv, hcv⟩ := pGet_eq_some_of_mem kvs k₀ hk₀
      rw [applyUpds_cons]
      simp only
      rw [setAt_dict kvs k₀ tl₀ uv hk₀, hcv,
        applyToChildrenD_step k₀ cv tl₀ uv us' kvs hnd hcv]
      simp only [Option.some_bind]
      cases childStep cv (tl₀, uv) with
      | none => simp
      | some c2 =>
          simp only [Option.map_some', Option.some_bind]
          have hkeys := dictSet_keys kvs k₀ c2 hk₀
          rw [ih (dictSet kvs k₀ c2) (hkeys ▸ hnd)
            (fun u hu => by
              obtain ⟨k2, tl2, h1, h2⟩ := hsh u (by simp [hu])
              exact ⟨k2, tl2, h1, hkeys ▸ h2⟩)]

theorem routeI : ∀ (us : List (PPath × PyVal)) (xs : List PyVal),
    (∀ u ∈ us, ∃ j tl, u.1 = PathKey.idx j :: tl ∧ j < xs.length) →
    applyUpds (.vList xs) us = (applyToChildrenI us 0 xs).map PyVal.vList := by
  intro us
  induction us with
  | nil => intro xs _; simp [applyUpds_nil, applyToChildrenI_nil]
  | cons u us' ih =>
      intro xs hsh
      obtain ⟨j, tl₀, hu1, hj⟩ := hsh u (by simp)
      obtain ⟨up, uv⟩ := u
      simp only at hu1
      subst hu1
      rw [applyUpds_cons]
      simp only
      rw [setAt_list xs j tl₀ uv hj,
        List.get?_eq_getElem?, List.getElem?_eq_getElem hj]
      have hstep := applyToChildrenI_step tl₀ uv us' xs 0 j (by omega)
      simp only [Nat.zero_add] at hstep
      rw [hstep]
      simp only [Option.some_bind]
      have hgg : xs.get ⟨j, by omega⟩ = xs[j] := rfl
      rw [hgg]
      cases childStep xs[j] (tl₀, uv) with
      | none => simp
      | some c2 =>
          simp only [Option.map_some', Option.some_bind]
          rw [ih (xs.set j c2)
            (fun u hu => by
              obtain ⟨j2, tl2, h1, h2⟩ := hsh u (by simp [hu])
              exact ⟨j2, tl2, h1, by simpa using h2⟩)]

theorem tailsForD_nil_of (us : List (PPath × PyVal)) (k₀ : String)
    (h : ∀ u ∈ us, ∀ tl : PPath, u.1 ≠ PathKey.fld k₀ :: tl) : tailsForD us k₀ = [] := by
  rw [tailsForD, List.filterMap_eq_nil_iff]
  intro u hu
  cases hu1 : u.1 with
  | nil => rfl
  | cons hd tl =>
      cases hd with
      | fld k' =>
          have : k' ≠ k₀ := fun he => h u hu tl (by rw [hu1, he])
          simp [this]
      | idx _ => rfl

theorem tailsForI_nil_of (us : List (PPath × PyVal)) (i₀ : Nat)
    (h : ∀ u ∈ us, ∀ tl : PPath, u.1 ≠ PathKey.idx i₀ :: tl) : tailsForI us i₀ = [] := by
  rw [tailsForI, List.filterMap_eq_nil_iff]
  intro u hu
  cases hu1 : u.1 with
  | nil => rfl
  | cons hd tl =>
      cases hd with
      | idx i' =>
          have : i' ≠ i₀ := fun he => h u hu tl (by rw [hu1, he])
          simp [this]
      | fld _ => rfl

theorem tailsForD_fld_map (ps : List PPath) (w : PyVal) (k : String) :
    tailsForD ((ps.map (fun p => PathKey.fld k :: p)).map (fun p => (p, w))) k =
      ps.map (fun p => (p, w)) := by
  induction ps with
  | nil => rfl
  | cons p ps ih =>
      simp only [tailsForD] at ih ⊢
      simp only [List.map_cons, List.filterMap_cons]
      simp only [List.filterMap_map] at ih
      simpa using ih

theorem tailsForI_idx_map (ps : List PPath) (w : PyVal) (i : Nat) :
    tailsForI ((ps.map (fun p => PathKey.idx i :: p)).map (fun p => (p, w))) i =
      ps.map (fun p => (p, w)) := by
  induction ps with
  | nil => rfl
  | cons p ps ih =>
      simp only [tailsForI] at ih ⊢
      simp only [List.map_cons, List.filterMap_cons]
      simp only [List.filterMap_map] at ih
      simpa using ih

theorem tailsForD_fld_map_ne (ps : List PPath) (w : PyVal) (k k₀ : String) (h : k ≠ k₀) :
    tailsForD ((ps.map (fun p => PathKey.fld k :: p)).map (fun p => (p, w))) k₀ = [] := by
  apply tailsForD_nil_of
  intro u hu tl he
  simp only [List.map_map, List.mem_map] at hu
  obtain ⟨p, _, rfl⟩ := hu
  simp only [Function.comp] at he
  exact h (by injection (by injection he with h1 _ : PathKey.fld k = PathKey.fld k₀) with h2)

theorem tailsForI_idx_map_ne (ps : List PPath) (w : PyVal) (i i₀ : Nat) (h : i ≠ i₀) :
    tailsForI ((ps.map (fun p => PathKey.idx i :: p)).map (fun p => (p, w))) i₀ = [] := by
  apply tailsForI_nil_of
  intro u hu tl he
  simp only [List.map_map, List.mem_map] at hu
  obtain ⟨p, _, rfl⟩ := hu
  simp only [Function.comp] at he
  exact h (by injection (by injection he with h1 _ : PathKey.idx i = PathKey.idx i₀) with h2)

theorem tailsForD_findPaths (n : String) (w : PyVal) :
    ∀ (kvs : List (String × PyVal)) (k₀ : String) (cv : PyVal),
      (kvs.map Prod.fst).Nodup → (k₀, cv) ∈ kvs →
      tailsForD ((findPathsDict n [] kvs).map (fun p => (p, w))) k₀ =
        (if isStrVal cv n then [(([] : PPath), w)] else []) ++
          (findPaths n [] cv).map (fun p => (p, w)) := by
  intro kvs
  induction kvs with
  | nil => intro k₀ cv _ hm; simp at hm
  | cons hd rest ih =>
      obtain ⟨k, gv⟩ := hd
      intro k₀ cv hnd hm
      have hnd1 : k ∉ rest.map Prod.fst := by
        simp only [List.map_cons, List.nodup_cons] at hnd
        exact hnd.1
      have hnd' : (rest.map Prod.fst).Nodup := by
        simp only [List.map_cons, List.nodup_cons] at hnd
        exact hnd.2
      rw [findPathsDict, findPaths_pre n ([] ++ [PathKey.fld k]) gv]
      simp only [List.nil_append, List.singleton_append, List.map_append,
        tailsForD_append]
      by_cases hk : k = k₀
      · subst hk
        have hgv : gv = cv := by
          rcases List.mem_cons.mp hm with hm1 | hm1
          · exact (Prod.mk.injEq .. ▸ hm1).2.symm
          · exact absurd (List.mem_map.mpr ⟨(k, cv), hm1, rfl⟩) hnd1
        subst hgv
        have hA : tailsForD ((if isStrVal gv n then [[PathKey.fld k]] else
            ([] : List PPath)).map (fun p => (p, w))) k =
            (if isStrVal gv n then [(([] : PPath), w)] else []) := by
          by_cases hsv : isStrVal gv n <;> simp [hsv, tailsForD]
        have hB := tailsForD_fld_map (findPaths n [] gv) w k
        have hC : tailsForD ((findPathsDict n [] rest).map (fun p => (p, w))) k = [] := by
          apply tailsForD_nil_of
          intro u hu tl he
          simp only [List.mem_map] at hu
          obtain ⟨p, hp, rfl⟩ := hu
          obtain ⟨k2, tl2, hp1, hp2⟩ := findPathsDict_shape n rest p hp
          simp only at he
          rw [he] at hp1
          have : k2 = k := by injection hp1 with h1 _; injection h1 with h2; exact h2.symm
          exact hnd1 (this ▸ hp2)
        rw [show (fun p => PathKey.fld k :: p) = (fun p : PPath => PathKey.fld k :: p)
          from rfl] at hB
        rw [hA, hB, hC, List.append_nil]
      · have hm' : (k₀, cv) ∈ rest := by
          rcases List.mem_cons.mp hm with hm1 | hm1
          · exact absurd (congrArg Prod.fst hm1).symm hk
          · exact hm1
        have hA : tailsForD ((if isStrVal gv n then [[PathKey.fld k]] else
            ([] : List PPath)).map (fun p => (p, w))) k₀ = [] := by
          by_cases hsv : isStrVal gv n <;> simp [hsv, tailsForD, hk]
        have hB := tailsForD_fld_map_ne (findPaths n [] gv) w k k₀ hk
        rw [hA, hB, ih k₀ cv hnd' hm']
        simp

theorem tailsForI_findPaths (n : String) (w : PyVal) :
    ∀ (xs : List PyVal) (i₀ j : Nat) (hj : j < xs.length),
      tailsForI ((findPathsList n [] i₀ xs).map (fun p => (p, w))) (i₀ + j) =
        (if isStrVal (xs.get ⟨j, hj⟩) n then [(([] : PPath), w)] else []) ++
          (findPaths n [] (xs.get ⟨j, hj⟩)).map (fun p => (p, w)) := by
  intro xs
  induction xs with
  | nil => intro i₀ j hj; simp at hj
  | cons v rest ih =>
      intro i₀ j hj
      rw [findPathsList, findPaths_pre n ([] ++ [PathKey.idx i₀]) v]
      simp only [List.nil_append, List.singleton_append, List.map_append,
        tailsForI_append]
      cases j with
      | zero =>
          simp only [Nat.add_zero]
          have hA : tailsForI ((if isStrVal v n then [[PathKey.idx i₀]] else
              ([] : List PPath)).map (fun p => (p, w))) i₀ =
              (if isStrVal v n then [(([] : PPath), w)] else []) := by
            by_cases hsv : isStrVal v n <;> simp [hsv, tailsForI]
          have hB := tailsForI_idx_map (findPaths n [] v) w i₀
          have hC : tailsForI ((findPathsList n [] (i₀ + 1) rest).map
              (fun p => (p, w))) i₀ = [] := by
            apply tailsForI_nil_of
            intro u hu tl he
            simp only [List.mem_map] at hu
            obtain ⟨p, hp, rfl⟩ := hu
            obtain ⟨j2, tl2, hp1, hp2, hp3⟩ := findPathsList_shape n rest (i₀ + 1) p hp
            simp only at he
            rw [he] at hp1
            have : j2 = i₀ := by injection hp1 with h1 _; injection h1 with h2; exact h2.symm
            omega
          rw [hA, hB, hC, List.append_nil]
          rfl
      | succ j' =>
          have hj' : j' < rest.length := by simpa using hj
          have hA : tailsForI ((if isStrVal v n then [[PathKey.idx i₀]] else
              ([] : List PPath)).map (fun p => (p, w))) (i₀ + (j' + 1)) = [] := by
            by_cases hsv : isStrVal v n
            · simp [hsv, tailsForI, show i₀ ≠ i₀ + (j' + 1) by omega]
            · simp [hsv, tailsForI]
          have hB := tailsForI_idx_map_ne (findPaths n [] v) w i₀ (i₀ + (j' + 1))
            (by omega)
          have hg : (v :: rest).get ⟨j' + 1, hj⟩ = rest.get ⟨j', hj'⟩ := rfl
          have hidx : i₀ + (j' + 1) = (i₀ + 1) + j' := by omega
          rw [hA, hB, hg, hidx, ih (i₀ + 1) j' hj']
          simp

theorem tailsForD_updsFor (kvs : List (String × PyVal)) (k₀ : String) (cv : PyVal)
    (hnd : (kvs.map Prod.fst).Nodup) (hm : (k₀, cv) ∈ kvs) (ms : List String)
    (V : String → PyVal) :
    tailsForD (updsFor (.vDict kvs) ms V) k₀ = childOpsFor cv ms V := by
  induction ms with
  | nil => rfl
  | cons n ms ih =>
      rw [updsFor, List.flatMap_cons, tailsForD_append, childOpsFor, List.flatMap_cons]
      rw [show findPaths n [] (PyVal.vDict kvs) = findPathsDict n [] kvs from rfl]
      rw [tailsForD_findPaths n (V n) kvs k₀ cv hnd hm]
      rw [show (ms.flatMap fun n =>
          (findPaths n [] (PyVal.vDict kvs)).map (fun p => (p, V n))) =
          updsFor (PyVal.vDict kvs) ms V from rfl, ih]
      rw [show (ms.flatMap fun n =>
          (if isStrVal cv n then [(([] : PPath), V n)] else []) ++
            (findPaths n [] cv).map (fun p => (p, V n))) = childOpsFor cv ms V from rfl]

theorem tailsForI_updsFor (xs : List PyVal) (j : Nat) (hj : j < xs.length)
    (ms : List String) (V : String → PyVal) :
    tailsForI (updsFor (.vList xs) ms V) j = childOpsFor (xs.get ⟨j, hj⟩) ms V := by
  induction ms with
  | nil => rfl
  | cons n ms ih =>
      rw [updsFor, List.flatMap_cons, tailsForI_append, childOpsFor, List.flatMap_cons]
      rw [show findPaths n [] (PyVal.vList xs) = findPathsList n [] 0 xs from rfl]
      have h0 := tailsForI_findPaths n (V n) xs 0 j hj
      simp only [Nat.zero_add] at h0
      rw [h0]
      rw [show (ms.flatMap fun n =>
          (findPaths n [] (PyVal.vList xs)).map (fun p => (p, V n))) =
          updsFor (PyVal.vList xs) ms V from rfl, ih]
      rw [show (ms.flatMap fun n =>
          (if isStrVal (xs.get ⟨j, hj⟩) n then [(([] : PPath), V n)] else []) ++
            (findPaths n [] (xs.get ⟨j, hj⟩)).map (fun p => (p, V n))) =
          childOpsFor (xs.get ⟨j, hj⟩) ms V from rfl]

theorem updsFor_shape_dict (kvs : List (String × PyVal)) (ms : List String)
    (V : String → PyVal) :
    ∀ u ∈ updsFor (.vDict kvs) ms V,
      ∃ k tl, u.1 = PathKey.fld k :: tl ∧ k ∈ kvs.map Prod.fst := by
  intro u hu
  rw [updsFor, List.mem_flatMap] at hu
  obtain ⟨n, _, hu2⟩ := hu
  rw [List.mem_map] at hu2
  obtain ⟨p, hp, rfl⟩ := hu2
  exact findPathsDict_shape n kvs p hp

theorem updsFor_shape_list (xs : List PyVal) (ms : List String) (V : String → PyVal) :
    ∀ u ∈ updsFor (.vList xs) ms V,
      ∃ j tl, u.1 = PathKey.idx j :: tl ∧ j < xs.length := by
  intro u hu
  rw [updsFor, List.mem_flatMap] at hu
  obtain ⟨n, _, hu2⟩ := hu
  rw [List.mem_map] at hu2
  obtain ⟨p, hp, rfl⟩ := hu2
  obtain ⟨j, tl, h1, _, h3⟩ := findPathsList_shape n xs 0 p hp
  exact ⟨j, tl, h1, by omega⟩

theorem childOpsFor_dict (kvs : List (String × PyVal)) (ms : List String)
    (V : String → PyVal) :
    childOpsFor (.vDict kvs) ms V = updsFor (.vDict kvs) ms V := by
  rw [childOpsFor, updsFor]
  simp [isStrVal]

theorem childOpsFor_list (xs : List PyVal) (ms : List String) (V : String → PyVal) :
    childOpsFor (.vList xs) ms V = updsFor (.vList xs) ms V := by
  rw [childOpsFor, updsFor]
  simp [isStrVal]

theorem childOpsFor_scalar_str (s : String) (ms : List String) (V : String → PyVal) :
    childOpsFor (.vStr s) ms V =
      (ms.filter (fun n => s == n)).map (fun n => (([] : PPath), V n)) := by
  induction ms with
  | nil => rfl
  | cons n ms ih =>
      rw [childOpsFor, List.flatMap_cons,
        show (ms.flatMap fun n =>
          (if isStrVal (.vStr s) n then [(([] : PPath), V n)] else []) ++
            (findPaths n [] (.vStr s)).map (fun p => (p, V n))) =
          childOpsFor (.vStr s) ms V from rfl, ih]
      by_cases hs : s = n
      · subst hs
        simp [isStrVal, findPaths, List.filter_cons]
      · have : (s == n) = false := beq_eq_false_iff_ne.mpr hs
        simp [isStrVal, findPaths, List.filter_cons, this]

theorem childOpsFor_nonmatch (cv : PyVal) (hsv : ∀ n, isStrVal cv n = false)
    (hfp : ∀ n, findPaths n [] cv = []) (ms : List String) (V : String → PyVal) :
    childOpsFor cv ms V = [] := by
  induction ms with
  | nil => rfl
  | cons n ms ih =>
      rw [childOpsFor, List.flatMap_cons,
        show (ms.flatMap fun n =>
          (if isStrVal cv n then [(([] : PPath), V n)] else []) ++
            (findPaths n [] cv).map (fun p => (p, V n))) = childOpsFor cv ms V from rfl,
        ih, hsv n, hfp n]
      simp

theorem childApply_repl (s : String) (V : String → PyVal) :
    ∀ (l : List String), (∀ n ∈ l, n = s) → l ≠ [] → ∀ cv : PyVal,
      childApply cv (l.map (fun n => (([] : PPath), V n))) = some (V s) := by
  intro l
  induction l with
  | nil => intro _ h; exact absurd rfl h
  | cons n l ih =>
      intro hall _ cv
      have hn : n = s := hall n (by simp)
      subst hn
      rw [List.map_cons, childApply_cons]
      rcases hl : l with _ | ⟨m, l2⟩
      · simp [childStep, childApply_nil]
      · rw [← hl]
        have : childStep cv (([] : PPath), V n) = some (V n) := by simp [childStep]
        rw [this, Option.some_bind]
        exact ih (fun m hm => hall m (by simp [hm])) (by simp [hl]) (V n)

theorem wfTree_dict_parts (kvs : List (String × PyVal))
    (h : wfTree (.vDict kvs) = true) :
    (kvs.map Prod.fst).Nodup ∧ wfTreeDict kvs = true := by
  rw [wfTree, Bool.and_eq_true] at h
  exact ⟨of_decide_eq_true h.1, h.2⟩

theorem wfTree_list_parts (xs : List PyVal) (h : wfTree (.vList xs) = true) :
    wfTreeList xs = true := by
  rwa [wfTree] at h

theorem wfTreeDict_mem (kvs : List (String × PyVal)) (h : wfTreeDict kvs = true) :
    ∀ kc ∈ kvs, wfTree (Prod.snd kc) = true := by
  induction kvs with
  | nil => intro kc hkc; simp at hkc
  | cons hd rest ih =>
      obtain ⟨k, gv⟩ := hd
      rw [wfTreeDict, Bool.and_eq_true] at h
      intro kc hkc
      rcases List.mem_cons.mp hkc with h1 | h1
      · rw [h1]; exact h.1
      · exact ih h.2 kc h1

theorem wfTreeList_mem (xs : List PyVal) (h : wfTreeList xs = true) :
    ∀ v ∈ xs, wfTree v = true := by
  induction xs with
  | nil => intro v hv; simp at hv
  | cons hd rest ih =>
      rw [wfTreeList, Bool.and_eq_true] at h
      intro v hv
      rcases List.mem_cons.mp hv with h1 | h1
      · rw [h1]; exact h.1
      · exact ih h.2 v h1

theorem sizeOf_mem_dict (kvs : List (String × PyVal)) (k : String) (gv : PyVal)
    (hm : (k, gv) ∈ kvs) : sizeOf gv < sizeOf (PyVal.vDict kvs) := by
  have h1 := List.sizeOf_lt_of_mem hm
  have h2 : sizeOf (k, gv) = 1 + sizeOf k + sizeOf gv := rfl
  simp only [PyVal.vDict.sizeOf_spec]
  omega

theorem sizeOf_mem_list (xs : List PyVal) (gv : PyVal) (hm : gv ∈ xs) :
    sizeOf gv < sizeOf (PyVal.vList xs) := by
  have h1 := List.sizeOf_lt_of_mem hm
  simp only [PyVal.vList.sizeOf_spec]
  omega

theorem applyToChildrenD_of_each (us : List (PPath × PyVal)) (ms : List String)
    (V : String → PyVal) :
    ∀ kvs₂ : List (String × PyVal),
      (∀ kc ∈ kvs₂, childApply (Prod.snd kc) (tailsForD us (Prod.fst kc)) =
        some (substSpec ms V (Prod.snd kc))) →
      applyToChildrenD us kvs₂ = some (substSpecDict ms V kvs₂) := by
  intro kvs₂
  induction kvs₂ with
  | nil => intro _; rfl
  | cons hd rest ih =>
      obtain ⟨k, gv⟩ := hd
      intro h
      rw [applyToChildrenD, h (k, gv) (by simp),
        ih (fun kc hkc => h kc (by simp [hkc]))]
      rfl

theorem applyToChildrenI_of_each (us : List (PPath × PyVal)) (ms : List String)
    (V : String → PyVal) :
    ∀ (xs₂ : List PyVal) (i₀ : Nat),
      (∀ (j : Nat) (hj : j < xs₂.length),
        childApply (xs₂.get ⟨j, hj⟩) (tailsForI us (i₀ + j)) =
          some (substSpec ms V (xs₂.get ⟨j, hj⟩))) →
      applyToChildrenI us i₀ xs₂ = some (substSpecList ms V xs₂) := by
  intro xs₂
  induction xs₂ with
  | nil => intro _ _; rfl
  | cons cv rest ih =>
      intro i₀ h
      have h0 : childApply cv (tailsForI us i₀) = some (substSpec ms V cv) := by
        have h1 := h 0 (by simp)
        simpa using h1
      rw [applyToChildrenI, h0,
        ih (i₀ + 1) (fun j hj => by
          have h2 := h (j + 1) (by simpa using Nat.succ_lt_succ hj)
          have h3 : (cv :: rest).get ⟨j + 1, by simpa using Nat.succ_lt_succ hj⟩ =
              rest.get ⟨j, hj⟩ := rfl
          rw [h3] at h2
          rwa [show i₀ + (j + 1) = i₀ + 1 + j by omega] at h2)]
      rfl

/-- Master lemma: on a well-formed tree, applying the name-major flattened
write list of the indexer's recorded sites performs exactly the claimed
placeholder substitution, child by child. -/
theorem substApply_master : ∀ (N : Nat) (cv : PyVal), sizeOf cv < N →
    wfTree cv = true → ∀ (ms : List String) (V : String → PyVal),
      childApply cv (childOpsFor cv ms V) = some (substSpec ms V cv) := by
  intro N
  induction N with
  | zero => intro cv h; omega
  | succ N ihN =>
      intro cv hsz hwf ms V
      cases cv with
      | vStr s =>
          rw [childOpsFor_scalar_str]
          by_cases hs : s ∈ ms
          · have hmem : s ∈ ms.filter (fun n => s == n) :=
              List.mem_filter.mpr ⟨hs, by simp⟩
            rw [childApply_repl s V _
              (fun n hn => by
                have := (List.mem_filter.mp hn).2
                simp at this
                exact this.symm)
              (List.ne_nil_of_mem hmem)]
            simp [substSpec, hs]
          · have hf : ms.filter (fun n => s == n) = [] := by
              rw [List.filter_eq_nil_iff]
              intro n hn
              simp only [beq_iff_eq]
              intro he
              exact hs (he ▸ hn)
            rw [hf]
            simp [childApply_nil, substSpec, hs]
      | vDict kvs =>
          obtain ⟨hnd, hwfd⟩ := wfTree_dict_parts kvs hwf
          rw [childOpsFor_dict]
          rw [childApply_eq_applyUpds _ _
            (fun u hu => by
              obtain ⟨k, tl, h1, _⟩ := updsFor_shape_dict kvs ms V u hu
              rw [h1]; simp)]
          rw [routeD (updsFor (.vDict kvs) ms V) kvs hnd (updsFor_shape_dict kvs ms V)]
          have hch : applyToChildrenD (updsFor (.vDict kvs) ms V) kvs =
              some (substSpecDict ms V kvs) := by
            apply applyToChildrenD_of_each
            intro kc hkc
            obtain ⟨k, gv⟩ := kc
            rw [tailsForD_updsFor kvs k gv hnd hkc]
            exact ihN gv (by have := sizeOf_mem_dict kvs k gv hkc; omega)
              (wfTreeDict_mem kvs hwfd (k, gv) hkc) ms V
          rw [hch]
          simp [substSpec]
      | vList xs =>
          have hwfl := wfTree_list_parts xs hwf
          rw [childOpsFor_list]
          rw [childApply_eq_applyUpds _ _
            (fun u hu => by
              obtain ⟨j, tl, h1, _⟩ := updsFor_shape_list xs ms V u hu
              rw [h1]; simp)]
          rw [routeI (updsFor (.vList xs) ms V) xs (updsFor_shape_list xs ms V)]
          have hch : applyToChildrenI (updsFor (.vList xs) ms V) 0 xs =
              some (substSpecList ms V xs) := by
            apply applyToChildrenI_of_each
            intro j hj
            rw [show (0 : Nat) + j = j from by omega, tailsForI_updsFor xs j hj]
            exact ihN (xs.get ⟨j, hj⟩)
              (by have := sizeOf_mem_list xs _ (List.get_mem xs j hj); omega)
              (wfTreeList_mem xs hwfl _ (List.get_mem xs j hj)) ms V
          rw [hch]
          simp [substSpec]
      | vNone =>
          rw [childOpsFor_nonmatch PyVal.vNone (fun n => rfl) (fun n => rfl), childApply_nil]
          simp [substSpec]
      | vBool b =>
          rw [childOpsFor_nonmatch (PyVal.vBool b) (fun n => rfl) (fun n => rfl), childApply_nil]
          simp [substSpec]
      | vInt n =>
          rw [childOpsFor_nonmatch (PyVal.vInt n) (fun m => rfl) (fun m => rfl), childApply_nil]
          simp [substSpec]
      | vFloat q =>
          rw [childOpsFor_nonmatch (PyVal.vFloat q) (fun n => rfl) (fun n => rfl), childApply_nil]
          simp [substSpec]
      | vBytes bs =>
          rw [childOpsFor_nonmatch (PyVal.vBytes bs) (fun n => rfl) (fun n => rfl), childApply_nil]
          simp [substSpec]
      | vUuid n =>
          rw [childOpsFor_nonmatch (PyVal.vUuid n) (fun m => rfl) (fun m => rfl), childApply_nil]
          simp [substSpec]
      | vOid n =>
          rw [childOpsFor_nonmatch (PyVal.vOid n) (fun m => rfl) (fun m => rfl), childApply_nil]
          simp [substSpec]
      | vDT y mo d h mi s us =>
          rw [childOpsFor_nonmatch (PyVal.vDT y mo d h mi s us) (fun n => rfl) (fun n => rfl), childApply_nil]
          simp [substSpec]

theorem filter_name_singleton (n : String) (path : PPath) (P : String → Bool) :
    ∀ ns : List String, ns.Nodup →
      (((ns.filter P).map (fun m => (m, path))).filter (fun e => e.1 == n)).map
          Prod.snd =
        if n ∈ ns ∧ P n = true then [path] else [] := by
  intro ns
  induction ns with
  | nil => intro _; simp
  | cons m ms ih =>
      intro hnd
      have hm : m ∉ ms := (List.nodup_cons.mp hnd).1
      have hnd' : ms.Nodup := (List.nodup_cons.mp hnd).2
      have ihr := ih hnd'
      by_cases hP : P m = true
      · by_cases hmn : m = n
        · subst hmn
          rw [List.filter_cons_of_pos hP, List.map_cons,
            List.filter_cons_of_pos (by simp), List.map_cons, ihr]
          simp [hm, hP]
        · rw [List.filter_cons_of_pos hP, List.map_cons,
            List.filter_cons_of_neg (by simp [hmn]), ihr]
          by_cases hn : n ∈ ms <;> simp [hn, Ne.symm hmn]
      · rw [List.filter_cons_of_neg hP, ihr]
        by_cases hmn : m = n
        · subst hmn
          simp [hm, hP]
        · by_cases hn : n ∈ ms <;> simp [hn, Ne.symm hmn]

mutual
theorem eventsFilter (ns : List String) (n : String) (hnd : ns.Nodup) (pre : PPath) :
    ∀ t : PyVal, ((paramEvents ns pre t).filter (fun e => e.1 == n)).map Prod.snd =
      (if n ∈ ns then findPaths n pre t else [])
  | .vDict kvs => by
      rw [paramEvents, show findPaths n pre (.vDict kvs) = findPathsDict n pre kvs
        from rfl, eventsFilterDict ns n hnd pre kvs]
  | .vList xs => by
      rw [paramEvents, show findPaths n pre (.vList xs) = findPathsList n pre 0 xs
        from rfl, eventsFilterList ns n hnd pre 0 xs]
  | .vNone => by simp [paramEvents, findPaths]
  | .vBool _ => by simp [paramEvents, findPaths]
  | .vInt _ => by simp [paramEvents, findPaths]
  | .vFloat _ => by simp [paramEvents, findPaths]
  | .vStr _ => by simp [paramEvents, findPaths]
  | .vBytes _ => by simp [paramEvents, findPaths]
  | .vUuid _ => by simp [paramEvents, findPaths]
  | .vOid _ => by simp [paramEvents, findPaths]
  | .vDT _ _ _ _ _ _ _ => by simp [paramEvents, findPaths]

theorem eventsFilterDict (ns : List String) (n : String) (hnd : ns.Nodup) (pre : PPath) :
    ∀ kvs : List (String × PyVal),
      ((paramEventsDict ns pre kvs).filter (fun e => e.1 == n)).map Prod.snd =
        (if n ∈ ns then findPathsDict n pre kvs else [])
  | [] => by simp [paramEventsDict, findPathsDict]
  | (k, v) :: rest => by
      rw [paramEventsDict, findPathsDict]
      rw [List.filter_append, List.filter_append, List.map_append, List.map_append]
      rw [filter_name_singleton n (pre ++ [PathKey.fld k]) (fun m => isStrVal v m) ns hnd]
      rw [eventsFilter ns n hnd (pre ++ [PathKey.fld k]) v]
      rw [eventsFilterDict ns n hnd pre rest]
      by_cases hn : n ∈ ns
      · simp only [hn, true_and, if_true]
      · simp [hn]

theorem eventsFilterList (ns : List String) (n : String) (hnd : ns.Nodup) (pre : PPath) :
    ∀ (i : Nat) (xs : List PyVal),
      ((paramEventsList ns pre i xs).filter (fun e => e.1 == n)).map Prod.snd =
        (if n ∈ ns then findPathsList n pre i xs else [])
  | i, [] => by simp [paramEventsList, findPathsList]
  | i, v :: rest => by
      rw [paramEventsList, findPathsList]
      rw [List.filter_append, List.filter_append, List.map_append, List.map_append]
      rw [filter_name_singleton n (pre ++ [PathKey.idx i]) (fun m => isStrVal v m) ns hnd]
      rw [eventsFilter ns n hnd (pre ++ [PathKey.idx i]) v]
      rw [eventsFilterList ns n hnd pre (i + 1) rest]
      by_cases hn : n ∈ ns
      · simp only [hn, true_and, if_true]
      · simp [hn]
end

mutual
theorem eventsMem (ns : List String) (pre : PPath) :
    ∀ (t : PyVal) (e : String × PPath), e ∈ paramEvents ns pre t → e.1 ∈ ns
  | .vDict kvs => fun e he => eventsMemDict ns pre kvs e he
  | .vList xs => fun e he => eventsMemList ns pre 0 xs e he
  | .vNone => fun e he => by simp [paramEvents] at he
  | .vBool _ => fun e he => by simp [paramEvents] at he
  | .vInt _ => fun e he => by simp [paramEvents] at he
  | .vFloat _ => fun e he => by simp [paramEvents] at he
  | .vStr _ => fun e he => by simp [paramEvents] at he
  | .vBytes _ => fun e he => by simp [paramEvents] at he
  | .vUuid _ => fun e he => by simp [paramEvents] at he
  | .vOid _ => fun e he => by simp [paramEvents] at he
  | .vDT _ _ _ _ _ _ _ => fun e he => by simp [paramEvents] at he

theorem eventsMemDict (ns : List String) (pre : PPath) :
    ∀ (kvs : List (String × PyVal)) (e : String × PPath),
      e ∈ paramEventsDict ns pre kvs → e.1 ∈ ns
  | [], e => fun he => by simp [paramEventsDict] at he
  | (k, v) :: rest, e => fun he => by
      rw [paramEventsDict] at he
      rcases List.mem_append.mp he with he2 | he2
      · rcases List.mem_append.mp he2 with he3 | he3
        · simp only [List.mem_map] at he3
          obtain ⟨m, hm, rfl⟩ := he3
          exact List.mem_of_mem_filter hm
        · exact eventsMem ns (pre ++ [PathKey.fld k]) v e he3
      · exact eventsMemDict ns pre rest e he2

theorem eventsMemList (ns : List String) (pre : PPath) :
    ∀ (i : Nat) (xs : List PyVal) (e : String × PPath),
      e ∈ paramEventsList ns pre i xs → e.1 ∈ ns
  | i, [], e => fun he => by simp [paramEventsList] at he
  | i, v :: rest, e => fun he => by
      rw [paramEventsList] at he
      rcases List.mem_append.mp he with he2 | he2
      · rcases List.mem_append.mp he2 with he3 | he3
        · simp only [List.mem_map] at he3
          obtain ⟨m, hm, rfl⟩ := he3
          exact List.mem_of_mem_filter hm
        · exact eventsMem ns (pre ++ [PathKey.idx i]) v e he3
      · exact eventsMemList ns pre (i + 1) rest e he2
end

mutual
theorem findPaths_nil_iff (n : String) :
    ∀ (t : PyVal) (pre : PPath), (findPaths n pre t = []) ↔ occursIn n t = false
  | .vDict kvs, pre => by
      rw [show findPaths n pre (.vDict kvs) = findPathsDict n pre kvs from rfl,
        show occursIn n (.vDict kvs) = occursInDict n kvs from rfl]
      exact findPathsDict_nil_iff n kvs pre
  | .vList xs, pre => by
      rw [show findPaths n pre (.vList xs) = findPathsList n pre 0 xs from rfl,
        show occursIn n (.vList xs) = occursInList n xs from rfl]
      exact findPathsList_nil_iff n xs pre 0
  | .vNone, pre => by simp [findPaths, occursIn]
  | .vBool _, pre => by simp [findPaths, occursIn]
  | .vInt _, pre => by simp [findPaths, occursIn]
  | .vFloat _, pre => by simp [findPaths, occursIn]
  | .vStr _, pre => by simp [findPaths, occursIn]
  | .vBytes _, pre => by simp [findPaths, occursIn]
  | .vUuid _, pre => by simp [findPaths, occursIn]
  | .vOid _, pre => by simp [findPaths, occursIn]
  | .vDT _ _ _ _ _ _ _, pre => by simp [findPaths, occursIn]

theorem findPathsDict_nil_iff (n : String) :
    ∀ (kvs : List (String × PyVal)) (pre : PPath),
      (findPathsDict n pre kvs = []) ↔ occursInDict n kvs = false
  | [], pre => by simp [findPathsDict, occursInDict]
  | (k, v) :: rest, pre => by
      rw [findPathsDict, occursInDict]
      simp only [List.append_eq_nil, Bool.or_eq_false_iff]
      rw [findPaths_nil_iff n v (pre ++ [PathKey.fld k]),
        findPathsDict_nil_iff n rest pre]
      by_cases hsv : isStrVal v n <;> simp [hsv, and_assoc]

theorem findPathsList_nil_iff (n : String) :
    ∀ (xs : List PyVal) (pre : PPath) (i : Nat),
      (findPathsList n pre i xs = []) ↔ occursInList n xs = false
  | [], pre, i => by simp [findPathsList, occursInList]
  | v :: rest, pre, i => by
      rw [findPathsList, occursInList]
      simp only [List.append_eq_nil, Bool.or_eq_false_iff]
      rw [findPaths_nil_iff n v (pre ++ [PathKey.idx i]),
        findPathsList_nil_iff n rest pre (i + 1)]
      by_cases hsv : isStrVal v n <;> simp [hsv, and_assoc]
end

mutual
theorem substSpecExt (ms ns : List String) (V : String → PyVal) :
    ∀ v : PyVal, (∀ s, (isStrVal v s || occursIn s v) = true → (s ∈ ms ↔ s ∈ ns)) →
      substSpec ms V v = substSpec ns V v
  | .vStr s => fun h => by
      have hs := h s (by simp [isStrVal])
      rw [show substSpec ms V (.vStr s) = (if s ∈ ms then V s else .vStr s) from rfl,
        show substSpec ns V (.vStr s) = (if s ∈ ns then V s else .vStr s) from rfl]
      by_cases hm : s ∈ ms
      · rw [if_pos hm, if_pos (hs.mp hm)]
      · rw [if_neg hm, if_neg (fun hn => hm (hs.mpr hn))]
  | .vDict kvs => fun h => by
      rw [show substSpec ms V (.vDict kvs) = .vDict (substSpecDict ms V kvs) from rfl,
        show substSpec ns V (.vDict kvs) = .vDict (substSpecDict ns V kvs) from rfl,
        substSpecDictExt ms ns V kvs (fun s hocc => h s (by
          rw [show occursIn s (.vDict kvs) = occursInDict s kvs from rfl]
          simp [hocc]))]
  | .vList xs => fun h => by
      rw [show substSpec ms V (.vList xs) = .vList (substSpecList ms V xs) from rfl,
        show substSpec ns V (.vList xs) = .vList (substSpecList ns V xs) from rfl,
        substSpecListExt ms ns V xs (fun s hocc => h s (by
          rw [show occursIn s (.vList xs) = occursInList s xs from rfl]
          simp [hocc]))]
  | .vNone => fun _ => rfl
  | .vBool _ => fun _ => rfl
  | .vInt _ => fun _ => rfl
  | .vFloat _ => fun _ => rfl
  | .vBytes _ => fun _ => rfl
  | .vUuid _ => fun _ => rfl
  | .vOid _ => fun _ => rfl
  | .vDT _ _ _ _ _ _ _ => fun _ => rfl

theorem substSpecDictExt (ms ns : List String) (V : String → PyVal) :
    ∀ kvs : List (String × PyVal),
      (∀ s, occursInDict s kvs = true → (s ∈ ms ↔ s ∈ ns)) →
      substSpecDict ms V kvs = substSpecDict ns V kvs
  | [] => fun _ => rfl
  | (k, v) :: rest => fun h => by
      rw [substSpecDict, substSpecDict,
        substSpecExt ms ns V v (fun s hocc => h s (by
          rw [occursInDict, hocc]
          simp)),
        substSpecDictExt ms ns V rest (fun s hocc => h s (by
          rw [occursInDict, hocc]
          simp))]

theorem substSpecListExt (ms ns : List String) (V : String → PyVal) :
    ∀ xs : List PyVal,
      (∀ s, occursInList s xs = true → (s ∈ ms ↔ s ∈ ns)) →
      substSpecList ms V xs = substSpecList ns V xs
  | [] => fun _ => rfl
  | v :: rest => fun h => by
      rw [substSpecList, substSpecList,
        substSpecExt ms ns V v (fun s hocc => h s (by
          rw [occursInList, hocc]
          simp)),
        substSpecListExt ms ns V rest (fun s hocc => h s (by
          rw [occursInList, hocc]
          simp))]
end

theorem addEvent_keys : ∀ (g : List (String × List PPath)) (e : String × PPath),
    (addEvent g e).map Prod.fst =
      if e.1 ∈ g.map Prod.fst then g.map Prod.fst else g.map Prod.fst ++ [e.1] := by
  intro g
  induction g with
  | nil => intro e; simp [addEvent]
  | cons hd rest ih =>
      obtain ⟨m, ps⟩ := hd
      intro e
      by_cases hme : m = e.1
      · subst hme
        rw [addEvent, if_pos rfl]
        simp
      · rw [addEvent, if_neg hme, List.map_cons, List.map_cons, ih e]
        by_cases he : e.1 ∈ rest.map Prod.fst
        · simp [he, Ne.symm hme]
        · simp [he, Ne.symm hme]

theorem addEvent_mem_fwd : ∀ (g : List (String × List PPath)) (e : String × PPath),
    (g.map Prod.fst).Nodup →
    ∀ pr ∈ addEvent g e,
      (pr ∈ g ∧ pr.1 ≠ e.1) ∨
      (∃ ps, (e.1, ps) ∈ g ∧ pr = (e.1, ps ++ [e.2])) ∨
      (e.1 ∉ g.map Prod.fst ∧ pr = (e.1, [e.2])) := by
  intro g
  induction g with
  | nil =>
      intro e _ pr hpr
      simp only [addEvent, List.mem_singleton] at hpr
      exact Or.inr (Or.inr ⟨by simp, hpr⟩)
  | cons hd rest ih =>
      obtain ⟨m, ps⟩ := hd
      intro e hnd pr hpr
      have hm : m ∉ rest.map Prod.fst := by
        simp only [List.map_cons, List.nodup_cons] at hnd
        exact hnd.1
      have hnd' : (rest.map Prod.fst).Nodup := by
        simp only [List.map_cons, List.nodup_cons] at hnd
        exact hnd.2
      by_cases hme : m = e.1
      · subst hme
        rw [addEvent, if_pos rfl] at hpr
        rcases List.mem_cons.mp hpr with h1 | h1
        · exact Or.inr (Or.inl ⟨ps, by simp, h1⟩)
        · refine Or.inl ⟨by simp [h1], ?_⟩
          intro heq
          exact hm (heq ▸ List.mem_map.mpr ⟨pr, h1, rfl⟩)
      · rw [addEvent, if_neg hme] at hpr
        rcases List.mem_cons.mp hpr with h1 | h1
        · exact Or.inl ⟨by simp [h1], by rw [h1]; exact fun he => hme he⟩
        · rcases ih e hnd' pr h1 with h2 | h2 | h2
          · exact Or.inl ⟨by simp [h2.1], h2.2⟩
          · obtain ⟨qs, hq1, hq2⟩ := h2
            exact Or.inr (Or.inl ⟨qs, by simp [hq1], hq2⟩)
          · refine Or.inr (Or.inr ⟨?_, h2.2⟩)
            simp only [List.map_cons, List.mem_cons]
            push_neg
            exact ⟨fun he => hme he.symm, h2.1⟩

theorem group_main : ∀ evs : List (String × PPath),
    ((evs.foldl addEvent []).map Prod.fst).Nodup ∧
    (∀ pr ∈ evs.foldl addEvent [],
      pr.2 = ((evs.filter (fun e => e.1 == pr.1)).map Prod.snd)) ∧
    (∀ n, n ∈ (evs.foldl addEvent []).map Prod.fst ↔ ∃ p, (n, p) ∈ evs) := by
  intro evs
  induction evs using List.reverseRecOn with
  | nil => simp
  | append_singleton evs e ih =>
      obtain ⟨ih1, ih2, ih3⟩ := ih
      have hfold : (evs ++ [e]).foldl addEvent [] = addEvent (evs.foldl addEvent []) e := by
        rw [List.foldl_append]
        rfl
      have hkeys := addEvent_keys (evs.foldl addEvent []) e
      refine ⟨?_, ?_, ?_⟩
      · rw [hfold, hkeys]
        by_cases he : e.1 ∈ (evs.foldl addEvent []).map Prod.fst
        · rw [if_pos he]; exact ih1
        · rw [if_neg he]
          exact List.Nodup.append ih1 (List.nodup_singleton _)
            (fun a ha hb => he ((List.mem_singleton.mp hb) ▸ ha))
      · rw [hfold]
        intro pr hpr
        rcases addEvent_mem_fwd (evs.foldl addEvent []) e ih1 pr hpr with h1 | h1 | h1
        · rw [List.filter_append, List.map_append, ← ih2 pr h1.1]
          have : ([e].filter (fun e2 => e2.1 == pr.1)) = [] := by
            simp [beq_eq_false_iff_ne, Ne.symm h1.2]
          rw [this]
          simp
        · obtain ⟨ps, hmem, rfl⟩ := h1
          rw [List.filter_append, List.map_append]
          have h2 := ih2 (e.1, ps) hmem
          simp only at h2
          rw [← h2]
          have : ([e].filter (fun e2 => e2.1 == (e.1, ps ++ [e.2]).1)) = [e] := by
            simp
          rw [this]
          simp
        · obtain ⟨hnotin, rfl⟩ := h1
          rw [List.filter_append, List.map_append]
          have hnone : evs.filter (fun e2 => e2.1 == e.1) = [] := by
            rw [List.filter_eq_nil_iff]
            intro a ha
            simp only [beq_iff_eq]
            intro heq
            exact hnotin ((ih3 e.1).mpr ⟨a.2, by rw [← heq]; exact ha⟩)
          rw [hnone]
          simp
      · intro n
        rw [hfold, hkeys]
        by_cases he : e.1 ∈ (evs.foldl addEvent []).map Prod.fst
        · rw [if_pos he]
          rw [ih3 n]
          constructor
          · rintro ⟨p, hp⟩
            exact ⟨p, by simp [hp]⟩
          · rintro ⟨p, hp⟩
            rcases List.mem_append.mp hp with h1 | h1
            · exact ⟨p, h1⟩
            · have hn : n = e.1 := congrArg Prod.fst (List.mem_singleton.mp h1)
              rw [hn]
              exact (ih3 e.1).mp he
        · rw [if_neg he]
          simp only [List.mem_append, List.mem_singleton, ih3 n]
          constructor
          · rintro (⟨p, hp⟩ | rfl)
            · exact ⟨p, by simp [hp]⟩
            · exact ⟨e.2, by simp⟩
          · rintro ⟨p, hp⟩
            rcases hp with h1 | h1
            · exact Or.inl ⟨p, h1⟩
            · exact Or.inr (congrArg Prod.fst h1)

theorem replaceJsonParamAtPaths_eq_applyUpds (paths : List PPath) (w : PyVal) :
    ∀ o : PyVal, replaceJsonParamAtPaths o paths w =
      applyUpds o (paths.map (fun p => (p, w))) := by
  induction paths with
  | nil => intro o; rfl
  | cons p ps ih =>
      intro o
      rw [replaceJsonParamAtPaths, List.foldlM_cons, List.map_cons, applyUpds_cons]
      cases h : setAt o p w with
      | none => simp [h]
      | some o2 =>
          simp only [h, Option.some_bind, Option.bind_eq_bind]
          exact ih o2

theorem updsFor_cons (t : PyVal) (n : String) (ms : List String)
    (V : String → PyVal) :
    updsFor t (n :: ms) V =
      (findPaths n [] t).map (fun p => (p, V n)) ++ updsFor t ms V := by
  rw [updsFor, List.flatMap_cons, updsFor]

theorem foldlM_ppd_flatten (V : String → PyVal) :
    ∀ (ppd : List (String × List PPath)) (o : PyVal),
      ppd.foldlM (fun o pr => replaceJsonParamAtPaths o pr.2 (V pr.1)) o =
        applyUpds o (ppd.flatMap (fun pr => pr.2.map (fun p => (p, V pr.1)))) := by
  intro ppd
  induction ppd with
  | nil => intro o; rfl
  | cons pr rest ih =>
      intro o
      rw [List.foldlM_cons, List.flatMap_cons, applyUpds_append,
        replaceJsonParamAtPaths_eq_applyUpds]
      cases h : applyUpds o (pr.2.map (fun p => (p, V pr.1))) with
      | none => simp [h]
      | some o2 =>
          simp only [h, Option.some_bind, Option.bind_eq_bind]
          exact ih o2

theorem substituteTree_flatten (ppd : List (String × List PPath))
    (V : String → PyVal) (t : PyVal) :
    substituteTree t ppd (fun n => some (V n)) =
      applyUpds t (ppd.flatMap (fun pr => pr.2.map (fun p => (p, V pr.1)))) := by
  simp only [substituteTree, replaceAllParams, if_true, deepcopyVal_id,
    Option.some_bind, Option.map_map]
  rw [foldlM_ppd_flatten]
  cases applyUpds t (ppd.flatMap (fun pr => pr.2.map (fun p => (p, V pr.1)))) <;> rfl

theorem mapAllParamPaths_entry (t : PyVal) (ns : List String) (hnd : ns.Nodup) :
    ∀ pr ∈ mapAllParamPaths t ns, pr.1 ∈ ns ∧ pr.2 = findPaths pr.1 [] t := by
  intro pr hpr
  obtain ⟨g1, g2, g3⟩ := group_main (paramEvents ns [] t)
  rw [mapAllParamPaths] at hpr
  have hkey : pr.1 ∈ ((paramEvents ns [] t).foldl addEvent []).map Prod.fst :=
    List.mem_map.mpr ⟨pr, hpr, rfl⟩
  obtain ⟨p, hp⟩ := (g3 pr.1).mp hkey
  have hmem : pr.1 ∈ ns := eventsMem ns [] t (pr.1, p) hp
  have h2 := g2 pr hpr
  rw [eventsFilter ns pr.1 hnd [] t, if_pos hmem] at h2
  exact ⟨hmem, h2⟩

theorem mapAllParamPaths_keys (t : PyVal) (ns : List String) (hnd : ns.Nodup)
    (n : String) :
    n ∈ (mapAllParamPaths t ns).map Prod.fst ↔
      (n ∈ ns ∧ findPaths n [] t ≠ []) := by
  obtain ⟨g1, g2, g3⟩ := group_main (paramEvents ns [] t)
  rw [mapAllParamPaths, g3 n]
  constructor
  · rintro ⟨p, hp⟩
    have hn : n ∈ ns := eventsMem ns [] t (n, p) hp
    refine ⟨hn, ?_⟩
    have hmem : p ∈ ((paramEvents ns [] t).filter (fun e => e.1 == n)).map Prod.snd := by
      refine List.mem_map.mpr ⟨(n, p), ?_, rfl⟩
      exact List.mem_filter.mpr ⟨hp, by simp⟩
    rw [eventsFilter ns n hnd [] t, if_pos hn] at hmem
    intro hnil
    rw [hnil] at hmem
    exact (List.not_mem_nil p) hmem
  · rintro ⟨hn, hne⟩
    have heq := eventsFilter ns n hnd [] t
    rw [if_pos hn] at heq
    rcases hfp : (paramEvents ns [] t).filter (fun e => e.1 == n) with _ | ⟨e, es⟩
    · rw [hfp, List.map_nil] at heq
      exact absurd heq.symm hne
    · have he : e ∈ (paramEvents ns [] t).filter (fun e => e.1 == n) := by
        rw [hfp]
        exact List.mem_cons_self e es
      have he2 := List.mem_filter.mp he
      have hen : e.1 = n := by simpa using he2.2
      refine ⟨e.2, ?_⟩
      rw [← hen]
      exact he2.1

theorem flatMap_entries_eq_updsFor (t : PyVal) (V : String → PyVal) :
    ∀ ppd : List (String × List PPath),
      (∀ pr ∈ ppd, pr.2 = findPaths pr.1 [] t) →
      ppd.flatMap (fun pr => pr.2.map (fun p => (p, V pr.1))) =
        updsFor t (ppd.map Prod.fst) V := by
  intro ppd
  induction ppd with
  | nil => intro _; rfl
  | cons pr rest ih =>
      intro h
      have h1 : pr.2.map (fun p => (p, V pr.1)) =
          (findPaths pr.1 [] t).map (fun p => (p, V pr.1)) := by
        rw [h pr (List.mem_cons_self pr rest)]
      have h2 := ih (fun q hq => h q (List.mem_cons_of_mem pr hq))
      rw [List.flatMap_cons, h1, h2, List.map_cons, updsFor_cons]

/-- **C1 (counterexample).**  The claim "building the path index for a
template and then substituting reaches every occurrence of each parameter
name" fails when the template root is itself a bare placeholder string:
`_map_all_param_paths` only compares dict values and list elements against
the parameter names, never the root object, so a scalar root records no
paths and `_replace_all_params` returns the template unchanged, while the
intended substitution would replace it. -/
theorem C1_counterexample :
    substituteTree (.vStr "a") (mapAllParamPaths (.vStr "a") ["a"])
        (fun _ => some (.vStr "b")) = some (.vStr "a") ∧
    substSpec ["a"] (fun _ => .vStr "b") (.vStr "a") = .vStr "b" ∧
    PyVal.vStr "a" ≠ PyVal.vStr "b" := by
  refine ⟨rfl, ?_, ?_⟩
  · rw [show substSpec ["a"] (fun _ => .vStr "b") (.vStr "a") =
      (if "a" ∈ ["a"] then PyVal.vStr "b" else .vStr "a") from rfl]
    simp
  · intro h
    injection h with h2
    exact absurd h2 (by decide)

/-- **C1 (amended).**  For a template whose root is an object or array
(which is every template the executor ever indexes), with distinct
parameter names and no duplicate keys inside any object of the template:
substituting along the paths recorded by `_map_all_param_paths` succeeds
and replaces exactly the occurrences of the parameter names — the result
is the specification-level substitution that replaces every string leaf
equal to a parameter name by that parameter's value and leaves everything
else unchanged. -/
theorem C1_amended_roundtrip (t : PyVal) (ns : List String) (V : String → PyVal)
    (hc : isContainer t = true) (hwf : wfTree t = true) (hnd : ns.Nodup) :
    substituteTree t (mapAllParamPaths t ns) (fun n => some (V n)) =
      some (substSpec ns V t) := by
  rw [substituteTree_flatten,
    flatMap_entries_eq_updsFor t V (mapAllParamPaths t ns)
      (fun pr hpr => (mapAllParamPaths_entry t ns hnd pr hpr).2)]
  have hkeys : ∀ s, s ∈ (mapAllParamPaths t ns).map Prod.fst ↔
      (s ∈ ns ∧ findPaths s [] t ≠ []) :=
    fun s => mapAllParamPaths_keys t ns hnd s
  have hbridge : ∀ s, occursIn s t = true →
      (s ∈ (mapAllParamPaths t ns).map Prod.fst ↔ s ∈ ns) := by
    intro s hocc
    have hfp : findPaths s [] t ≠ [] := by
      intro h0
      rw [findPaths_nil_iff s t []] at h0
      rw [h0] at hocc
      cases hocc
    rw [hkeys s]
    exact ⟨fun h => h.1, fun h => ⟨h, hfp⟩⟩
  generalize hem : (mapAllParamPaths t ns).map Prod.fst = ems at *
  cases t with
  | vDict kvs =>
      have hne : ∀ u ∈ updsFor (.vDict kvs) ems V, u.1 ≠ [] := by
        intro u hu hnil
        obtain ⟨k, tl, h1, _⟩ := updsFor_shape_dict kvs ems V u hu
        rw [h1] at hnil
        cases hnil
      rw [← childApply_eq_applyUpds (PyVal.vDict kvs) (updsFor (PyVal.vDict kvs) ems V) hne,
        ← childOpsFor_dict kvs ems V,
        substApply_master (sizeOf (PyVal.vDict kvs) + 1) (PyVal.vDict kvs)
          (Nat.lt_succ_self _) hwf ems V,
        substSpecExt ems ns V (PyVal.vDict kvs)
          (fun s hs => hbridge s (by simpa [isStrVal] using hs))]
  | vList xs =>
      have hne : ∀ u ∈ updsFor (.vList xs) ems V, u.1 ≠ [] := by
        intro u hu hnil
        obtain ⟨j, tl, h1, _⟩ := updsFor_shape_list xs ems V u hu
        rw [h1] at hnil
        cases hnil
      rw [← childApply_eq_applyUpds (PyVal.vList xs) (updsFor (PyVal.vList xs) ems V) hne,
        ← childOpsFor_list xs ems V,
        substApply_master (sizeOf (PyVal.vList xs) + 1) (PyVal.vList xs)
          (Nat.lt_succ_self _) hwf ems V,
        substSpecExt ems ns V (PyVal.vList xs)
          (fun s hs => hbridge s (by simpa [isStrVal] using hs))]
  | vNone => simp [isContainer] at hc
  | vBool b => simp [isContainer] at hc
  | vInt i => simp [isContainer] at hc
  | vFloat q => simp [isContainer] at hc
  | vStr s => simp [isContainer] at hc
  | vBytes bs => simp [isContainer] at hc
  | vUuid u => simp [isContainer] at hc
  | vOid o => simp [isContainer] at hc
  | vDT d => simp [isContainer] at hc

theorem C1_amended_roundtrip_witness :
    isContainer (PyVal.vDict [("x", .vStr "p")]) = true ∧
    wfTree (PyVal.vDict [("x", .vStr "p")]) = true ∧
    (["p"] : List String).Nodup ∧
    substituteTree (.vDict [("x", .vStr "p")])
        (mapAllParamPaths (.vDict [("x", .vStr "p")]) ["p"])
        (fun _ => some (.vInt 7)) =
      some (substSpec ["p"] (fun _ => .vInt 7) (.vDict [("x", .vStr "p")])) :=
  ⟨rfl, by simp [wfTree, wfTreeDict], by simp,
    C1_amended_roundtrip (.vDict [("x", .vStr "p")]) ["p"] (fun _ => .vInt 7)
      rfl (by simp [wfTree, wfTreeDict]) (by simp)⟩
